import Mathlib

/-!
Verification of the path-planning and vehicle-following control core of the
Airsim101_Yolov10 repository: a shallow embedding of `core/astar.py`,
`core/control.py` and `utils/common.py`, with theorems checking the
specification's claims about them.

Floating-point numbers of the Python source are modelled as real numbers;
Python's `float('infinity')` scores are modelled with `WithTop ℝ`; the
unbounded `while` loops are modelled with an explicit fuel parameter (a
`none` result means the loop did not complete within the given fuel), and
termination is proved separately.
-/

noncomputable section

/-- Coordinates are pairs `(x, y)` of reals, as the Python `tuple`s. -/
abbrev Coord : Type := ℝ × ℝ

/-- Embedding of `utils/common.py::distance`: Euclidean distance of two points. -/
def distance (pt1 pt2 : Coord) : ℝ :=
  Real.sqrt ((pt1.1 - pt2.1) ^ 2 + (pt1.2 - pt2.2) ^ 2)

/-- Embedding of `core/astar.py::heuristic`: Euclidean distance of two coordinates
(textually the same computation as `distance`, defined separately in the source). -/
def heuristic (coord1 coord2 : Coord) : ℝ :=
  Real.sqrt ((coord1.1 - coord2.1) ^ 2 + (coord1.2 - coord2.2) ^ 2)

/-- Numpy's `np.deg2rad`: degrees to radians. -/
def deg2rad (x : ℝ) : ℝ := x * Real.pi / 180

/-- Numpy's `np.arctan2 y x`: four-quadrant arctangent; `arctan2 0 0 = 0`,
matching numpy's behaviour on `(+0., +0.)`. -/
def arctan2 (y x : ℝ) : ℝ :=
  if 0 < x then Real.arctan (y / x)
  else if x < 0 then
    (if 0 ≤ y then Real.arctan (y / x) + Real.pi else Real.arctan (y / x) - Real.pi)
  else
    (if 0 < y then Real.pi / 2 else if y < 0 then -(Real.pi / 2) else 0)

/-- Numpy's `np.clip x lo hi`, i.e. `min hi (max x lo)`. -/
def npclip (x lo hi : ℝ) : ℝ := min hi (max x lo)

/-- Embedding of `core/control.py::pure_pursuit_control`. -/
def pure_pursuit_control (current_position : Coord) (current_heading : ℝ)
    (target_position : Coord) (ld : ℝ := 4) : ℝ :=
  let dx := target_position.1 - current_position.1
  let dy := target_position.2 - current_position.2
  let angle_to_target := arctan2 dy dx
  let angle_front_car := deg2rad current_heading
  let alpha := angle_to_target - angle_front_car
  let steering_angle := Real.arctan (2 * 2.5 * Real.sin alpha / ld)
  let max_steering_angle := deg2rad 30
  npclip steering_angle (-max_steering_angle) max_steering_angle

lemma deg2rad_nonneg {x : ℝ} (hx : 0 ≤ x) : 0 ≤ deg2rad x := by
  unfold deg2rad
  positivity

lemma deg2rad_thirty : deg2rad 30 = Real.pi / 6 := by
  unfold deg2rad
  ring

lemma npclip_mem (x : ℝ) {lo hi : ℝ} (h : lo ≤ hi) :
    lo ≤ npclip x lo hi ∧ npclip x lo hi ≤ hi := by
  constructor
  · exact le_min h (le_max_right x lo)
  · exact min_le_left hi _

/-- C3: the pure-pursuit steering command is always within
`[-30°, +30°]` in radians, for arbitrary (finite, i.e. real) inputs. -/
theorem pure_pursuit_control_bounded (cp : Coord) (hd : ℝ) (tp : Coord) (ld : ℝ) :
    -(deg2rad 30) ≤ pure_pursuit_control cp hd tp ld ∧
      pure_pursuit_control cp hd tp ld ≤ deg2rad 30 := by
  have h30 : (0:ℝ) ≤ deg2rad 30 := deg2rad_nonneg (by norm_num)
  have h : -(deg2rad 30) ≤ deg2rad 30 := le_trans (neg_nonpos.mpr h30) h30
  exact npclip_mem _ h

/-- C4 counterexample: with the target exactly at the current position and
heading 90°, the steering returned by `pure_pursuit_control` is strictly
negative, hence not zero: the zero-distance case is not special-cased to zero
steering (numpy's `arctan2 0 0 = 0` makes `alpha = -heading`). -/
theorem pure_pursuit_zero_distance_not_zero :
    pure_pursuit_control (0, 0) 90 (0, 0) 4 ≠ 0 := by
  have harct : arctan2 (0 - 0) (0 - 0) = 0 := by
    unfold arctan2
    norm_num
  have hsin : Real.sin (arctan2 ((0:ℝ) - 0) ((0:ℝ) - 0) - deg2rad 90) = -1 := by
    rw [harct]
    have : (0:ℝ) - deg2rad 90 = -(Real.pi / 2) := by
      unfold deg2rad
      ring
    rw [this, Real.sin_neg, Real.sin_pi_div_two]
  have hneg : Real.arctan (2 * 2.5 * (-1) / 4) < 0 := by
    have h1 : (2 * 2.5 * (-1) / 4 : ℝ) < 0 := by norm_num
    have := Real.arctan_strictMono h1
    rwa [Real.arctan_zero] at this
  have h30 : (0:ℝ) < deg2rad 30 := by
    unfold deg2rad
    positivity
  have hres : pure_pursuit_control (0, 0) 90 (0, 0) 4 < 0 := by
    unfold pure_pursuit_control
    simp only
    rw [hsin]
    unfold npclip
    have hmax : max (Real.arctan (2 * 2.5 * (-1) / 4)) (-(deg2rad 30)) < 0 :=
      max_lt hneg (by linarith)
    exact lt_of_le_of_lt (min_le_right _ _) hmax
  exact ne_of_lt hres

/-- C4 amended: when the target coincides with the current position, the
steering is a well-defined real number equal to the clamped
`arctan(-2·2.5·sin(heading in radians)/ld)`; it is zero precisely in the cases
where `sin` of the heading (in radians) vanishes, e.g. heading 0° or 180°. -/
theorem pure_pursuit_zero_distance_of_sin_eq_zero (cp : Coord) (hd ld : ℝ)
    (hsin : Real.sin (deg2rad hd) = 0) :
    pure_pursuit_control cp hd cp ld = 0 := by
  have harct : arctan2 (cp.2 - cp.2) (cp.1 - cp.1) = 0 := by
    unfold arctan2
    norm_num
  have h30 : (0:ℝ) ≤ deg2rad 30 := deg2rad_nonneg (by norm_num)
  unfold pure_pursuit_control
  simp only
  rw [harct]
  have hsin' : Real.sin (0 - deg2rad hd) = 0 := by
    rw [zero_sub, Real.sin_neg, hsin, neg_zero]
  rw [hsin']
  have : (2 * 2.5 * 0 / ld : ℝ) = 0 := by ring
  rw [this, Real.arctan_zero]
  unfold npclip
  rw [max_eq_left (neg_nonpos.mpr h30), min_eq_right h30]

theorem pure_pursuit_zero_distance_witness :
    Real.sin (deg2rad 0) = 0 ∧ pure_pursuit_control (0, 0) 0 (0, 0) 4 = 0 := by
  have h : Real.sin (deg2rad 0) = 0 := by
    unfold deg2rad
    norm_num
  exact ⟨h, pure_pursuit_zero_distance_of_sin_eq_zero (0, 0) 0 4 h⟩

/-- The eight range readings returned by `core/sensors.py::get_distance_sensors`,
in source order. -/
structure SensorFrame where
  front : ℝ
  front_left : ℝ
  front_right : ℝ
  rear : ℝ
  rear_left : ℝ
  rear_right : ℝ
  left : ℝ
  right : ℝ

/-- The mutable `airsim.CarControls` fields written by `core/control.py`. -/
structure CarControls where
  steering : ℝ
  throttle : ℝ
  brake : ℝ
  is_manual_gear : Bool
  manual_gear : ℤ

/-- Which maneuver the reactive safety checks of one `control_vehicle` tick
select (lines 97-104 of `core/control.py`). -/
inductive Maneuver
  | reverse (fromPos target : Coord)
  | steerLeft
  | steerRight
  | nominal

/-- One control tick of `core/control.py::control_vehicle` (lines 92-104): the
nominal pure-pursuit command followed by the `if front / elif left / elif right`
safety checks, in source order. Returns the car controls as they stand when the
branch completes and the selected maneuver. -/
def controlTick (current_position : Coord) (car_heading : ℝ) (waypoint : Coord)
    (s : SensorFrame) (c : CarControls) : CarControls × Maneuver :=
  let steering_angle := pure_pursuit_control current_position car_heading waypoint
  let c1 : CarControls := { c with steering := steering_angle, throttle := 0.3 }
  if s.front < 4 then
    ({ c1 with throttle := 0 }, Maneuver.reverse current_position waypoint)
  else if s.left < 1 ∨ s.front_left < 2 then
    ({ c1 with steering := deg2rad 30 }, Maneuver.steerLeft)
  else if s.right < 1 ∨ s.front_right < 2 then
    ({ c1 with steering := deg2rad (-30) }, Maneuver.steerRight)
  else (c1, Maneuver.nominal)

/-- C2: when the front reading is below 4, whatever the lateral readings, the
tick zeroes the throttle and selects the reverse-recovery maneuver with the
current waypoint as return target, and the steering is left at the nominal
pure-pursuit value (no ±30° lateral override): front-blockage preempts the
lateral checks. -/
theorem front_blockage_preempts (cp : Coord) (hd : ℝ) (wp : Coord)
    (s : SensorFrame) (c : CarControls) (hfront : s.front < 4) :
    (controlTick cp hd wp s c).1.throttle = 0 ∧
      (controlTick cp hd wp s c).2 = Maneuver.reverse cp wp ∧
      (controlTick cp hd wp s c).1.steering = pure_pursuit_control cp hd wp := by
  unfold controlTick
  rw [if_pos hfront]
  exact ⟨rfl, rfl, rfl⟩

theorem front_blockage_preempts_witness :
    ((3:ℝ) < 4) ∧
      ((controlTick (0, 0) 0 (5, 0) ⟨3, 0, 0, 0, 0, 0, 0, 0⟩
          ⟨0, 0, 0, false, 0⟩).1.throttle = 0 ∧
        (controlTick (0, 0) 0 (5, 0) ⟨3, 0, 0, 0, 0, 0, 0, 0⟩
          ⟨0, 0, 0, false, 0⟩).2 = Maneuver.reverse (0, 0) (5, 0) ∧
        (controlTick (0, 0) 0 (5, 0) ⟨3, 0, 0, 0, 0, 0, 0, 0⟩
          ⟨0, 0, 0, false, 0⟩).1.steering = pure_pursuit_control (0, 0) 0 (5, 0)) :=
  ⟨by norm_num,
    front_blockage_preempts (0, 0) 0 (5, 0) ⟨3, 0, 0, 0, 0, 0, 0, 0⟩
      ⟨0, 0, 0, false, 0⟩ (by norm_num)⟩

/-- One tick of the stuck-detector bookkeeping of `control_vehicle`
(lines 111-120 of `core/control.py`): update `(stuck_position, stuck_counter)`
from the current position, and report whether reverse-recovery was triggered
this tick (in which case the counter and the stable position are reset). -/
def stuckStep (st : Option Coord × ℕ) (current_position : Coord) :
    (Option Coord × ℕ) × Bool :=
  let upd : Option Coord × ℕ :=
    match st.1 with
    | none => (some current_position, 0)
    | some p =>
      if distance current_position p > 1 then (some current_position, 0)
      else (st.1, st.2 + 1)
  if upd.2 > 100 then ((none, 0), true) else (upd, false)

/-- Iterate `stuckStep` over a list of per-tick positions, collecting the
per-tick trigger flags. -/
def stuckRun : Option Coord × ℕ → List Coord → (Option Coord × ℕ) × List Bool
  | st, [] => (st, [])
  | st, p :: ps =>
    let r := stuckStep st p
    let rest := stuckRun r.1 ps
    (rest.1, r.2 :: rest.2)

lemma distance_self (p : Coord) : distance p p = 0 := by
  unfold distance
  simp

lemma stuckStep_near {p q : Coord} {k : ℕ} (hnear : distance p q ≤ 1)
    (hk : k + 1 ≤ 100) :
    stuckStep (some q, k) p = ((some q, k + 1), false) := by
  unfold stuckStep
  simp only [not_lt.mpr hnear, gt_iff_lt, if_neg (not_lt.mpr hnear)]
  have : ¬ (100 < k + 1) := not_lt.mpr hk
  simp [this]

lemma stuckRun_near {q : Coord} {k : ℕ} (ps : List Coord)
    (hnear : ∀ p ∈ ps, distance p q ≤ 1) (hk : k + ps.length ≤ 100) :
    stuckRun (some q, k) ps =
      ((some q, k + ps.length), List.replicate ps.length false) := by
  induction ps generalizing k with
  | nil => simp [stuckRun]
  | cons p ps ih =>
    have h1 : distance p q ≤ 1 := hnear p (List.mem_cons_self p ps)
    have hk1 : k + 1 ≤ 100 := by
      have := hk
      simp only [List.length_cons] at this
      omega
    unfold stuckRun
    rw [stuckStep_near h1 hk1]
    simp only
    rw [ih (fun r hr => hnear r (List.mem_cons_of_mem p hr)) (by simp at hk ⊢; omega)]
    simp [List.replicate_succ]
    omega

/-- C6 counterexample: starting from a fresh stuck detector, 101 ticks with
zero displacement trigger no recovery at all (the first tick merely records
the stable position; the counter reaches 100, and the trigger requires > 100),
contradicting the claim that recovery fires exactly once at tick 101. -/
theorem stuck_101_ticks_no_trigger :
    (stuckRun (none, 0) (List.replicate 101 (0, 0))).2 =
      List.replicate 101 false := by
  have hfirst : stuckStep (none, 0) ((0:ℝ), (0:ℝ)) = ((some (0, 0), 0), false) := by
    unfold stuckStep
    norm_num
  have h100 : stuckRun (some ((0:ℝ), (0:ℝ)), 0) (List.replicate 100 (0, 0)) =
      ((some (0, 0), 100), List.replicate 100 false) := by
    have := stuckRun_near (q := ((0:ℝ), (0:ℝ))) (k := 0) (List.replicate 100 (0, 0))
      (fun p hp => by
        rw [List.eq_of_mem_replicate hp, distance_self]
        norm_num)
      (by simp)
    simpa using this
  have : (List.replicate 101 ((0:ℝ), (0:ℝ))) =
      ((0:ℝ), (0:ℝ)) :: List.replicate 100 ((0:ℝ), (0:ℝ)) := by
    rfl
  rw [this]
  unfold stuckRun
  rw [hfirst]
  simp only
  rw [h100]
  rfl

/-- C6 amended: from a fresh stuck detector, the first tick records the stable
position; if the following 101 ticks each stay within displacement < 1 of that
recorded position, recovery triggers exactly once, at the 102nd tick overall
(the 101st low-displacement tick, when the counter exceeds 100), and
immediately afterwards the counter is reset and the stable position cleared. -/
theorem stuck_triggers_at_tick_102 (p0 : Coord) (ps : List Coord)
    (hlen : ps.length = 101) (hnear : ∀ p ∈ ps, distance p p0 < 1) :
    stuckRun (none, 0) (p0 :: ps) =
      ((none, 0), false :: (List.replicate 100 false ++ [true])) := by
  obtain ⟨qs, plast, hsplit, hqs⟩ :
      ∃ qs plast, ps = qs ++ [plast] ∧ qs.length = 100 := by
    rcases List.eq_nil_or_concat ps with h | ⟨qs, plast, h⟩
    · simp [h] at hlen
    · rw [List.concat_eq_append] at h
      refine ⟨qs, plast, h, ?_⟩
      have := hlen
      rw [h] at this
      simpa using this
  have hfirst : stuckStep (none, 0) p0 = ((some p0, 0), false) := by
    unfold stuckStep
    norm_num
  have hqs_near : ∀ p ∈ qs, distance p p0 ≤ 1 := fun p hp =>
    le_of_lt (hnear p (by rw [hsplit]; exact List.mem_append_left _ hp))
  have hlast_near : distance plast p0 ≤ 1 :=
    le_of_lt (hnear plast (by rw [hsplit]; exact List.mem_append_right _ (by simp)))
  have hrun_qs : stuckRun (some p0, 0) qs =
      ((some p0, 100), List.replicate 100 false) := by
    have := stuckRun_near (q := p0) (k := 0) qs hqs_near (by rw [hqs])
    rw [hqs] at this
    simpa using this
  have hlast : stuckStep (some p0, 100) plast = ((none, 0), true) := by
    unfold stuckStep
    simp only [not_lt.mpr hlast_near, gt_iff_lt, if_neg (not_lt.mpr hlast_near)]
    norm_num
  have happ : ∀ (st : Option Coord × ℕ) (l1 l2 : List Coord),
      stuckRun st (l1 ++ l2) =
        ((stuckRun (stuckRun st l1).1 l2).1,
          (stuckRun st l1).2 ++ (stuckRun (stuckRun st l1).1 l2).2) := by
    intro st l1 l2
    induction l1 generalizing st with
    | nil => simp [stuckRun]
    | cons x xs ih => simp [stuckRun, ih]
  rw [hsplit]
  show stuckRun (none, 0) ((p0 :: qs) ++ [plast]) = _
  rw [happ]
  have hrun_first : stuckRun (none, 0) (p0 :: qs) =
      ((some p0, 100), false :: List.replicate 100 false) := by
    unfold stuckRun
    rw [hfirst]
    simp only
    rw [hrun_qs]
  rw [hrun_first]
  simp only
  unfold stuckRun
  rw [hlast]
  simp [stuckRun]

theorem stuck_triggers_at_tick_102_witness :
    ((List.replicate 101 ((0:ℝ), (0:ℝ))).length = 101 ∧
      ∀ p ∈ List.replicate 101 ((0:ℝ), (0:ℝ)), distance p (0, 0) < 1) ∧
    stuckRun (none, 0) ((0, 0) :: List.replicate 101 ((0:ℝ), (0:ℝ))) =
      ((none, 0), false :: (List.replicate 100 false ++ [true])) := by
  have h1 : (List.replicate 101 ((0:ℝ), (0:ℝ))).length = 101 := by simp
  have h2 : ∀ p ∈ List.replicate 101 ((0:ℝ), (0:ℝ)), distance p (0, 0) < 1 := by
    intro p hp
    rw [List.eq_of_mem_replicate hp, distance_self]
    norm_num
  exact ⟨⟨h1, h2⟩, stuck_triggers_at_tick_102 (0, 0) _ h1 h2⟩

/-- Commands issued to the simulator client by the control code. -/
inductive Event
  | setControls (c : CarControls)
  | enableApi (b : Bool)

/-- The position held in `current_position` at the start of reverse-loop
iteration `k`: the caller-supplied position before the first iteration, then
the pose read in the previous iteration. -/
def reversePos (poses : ℕ → Coord) (p0 : Coord) : ℕ → Coord
  | 0 => p0
  | k + 1 => poses k

/-- Accumulated reverse displacement (`distance_covered`) after `k` iterations
of the `go_reverse` loop: the sum of Euclidean displacements between the
successive poses read from the client. -/
def reverseAccum (poses : ℕ → Coord) (p0 : Coord) : ℕ → ℝ
  | 0 => 0
  | k + 1 =>
    reverseAccum poses p0 k + distance (reversePos poses p0 k) (poses k)

/-- The `while distance_covered < reverse_distance` loop of
`core/control.py::go_reverse` (lines 51-66), with the client's successive pose
readings supplied as a stream and an explicit fuel bound on the number of
iterations (`none` means the loop did not finish within `fuel` iterations).
Returns the final controls, the number of poses consumed, and the
`setCarControls` events issued. -/
def goReverseLoop (poses : ℕ → Coord) (target : Coord) :
    ℕ → ℕ → ℝ → Coord → CarControls → Option (CarControls × ℕ × List Event)
  | 0, k, dc, _, c =>
    if dc < 5 then none
    else
      some ({ c with is_manual_gear := false, manual_gear := 0, throttle := 0 }, k,
        [Event.setControls
          { c with is_manual_gear := false, manual_gear := 0, throttle := 0 }])
  | fuel + 1, k, dc, cur, c =>
    if dc < 5 then
      let new_position := poses k
      let c1 : CarControls :=
        { c with steering := pure_pursuit_control new_position 180 target }
      match goReverseLoop poses target fuel (k + 1)
          (dc + distance cur new_position) new_position c1 with
      | none => none
      | some (cf, kf, evs) => some (cf, kf, Event.setControls c1 :: evs)
    else
      some ({ c with is_manual_gear := false, manual_gear := 0, throttle := 0 }, k,
        [Event.setControls
          { c with is_manual_gear := false, manual_gear := 0, throttle := 0 }])

/-- Embedding of `core/control.py::go_reverse`: engage reverse gear and reverse
throttle, run the loop until 5 distance units are covered, then disengage the
gear and zero the throttle. -/
def go_reverse (poses : ℕ → Coord) (current_position target : Coord)
    (c : CarControls) (fuel : ℕ) : Option (CarControls × ℕ × List Event) :=
  goReverseLoop poses target fuel 0 0 current_position
    { c with throttle := -0.3, is_manual_gear := true, manual_gear := -1 }

lemma goReverseLoop_exit {poses : ℕ → Coord} {target : Coord} {p0 : Coord}
    (m : ℕ) :
    ∀ j : ℕ, 5 ≤ reverseAccum poses p0 (j + m) →
      ∀ c : CarControls,
        ∃ cf kf evs,
          goReverseLoop poses target m j (reverseAccum poses p0 j)
              (reversePos poses p0 j) c = some (cf, kf, evs) ∧
            cf.is_manual_gear = false ∧ cf.manual_gear = 0 ∧ cf.throttle = 0 := by
  induction m with
  | zero =>
    intro j hj c
    rw [Nat.add_zero] at hj
    refine ⟨{ c with is_manual_gear := false, manual_gear := 0, throttle := 0 }, j,
      [Event.setControls
        { c with is_manual_gear := false, manual_gear := 0, throttle := 0 }],
      ?_, rfl, rfl, rfl⟩
    unfold goReverseLoop
    rw [if_neg (not_lt.mpr hj)]
  | succ m ih =>
    intro j hj c
    by_cases hdc : reverseAccum poses p0 j < 5
    · have hstep : reverseAccum poses p0 j +
          distance (reversePos poses p0 j) (poses j) =
            reverseAccum poses p0 (j + 1) := by
        rw [show j + 1 = (j + 1) from rfl]
        rfl
      have hj' : 5 ≤ reverseAccum poses p0 ((j + 1) + m) := by
        have : (j + 1) + m = j + (m + 1) := by omega
        rw [this]
        exact hj
      obtain ⟨cf, kf, evs, heq, h1, h2, h3⟩ := ih (j + 1) hj'
        { c with steering := pure_pursuit_control (poses j) 180 target }
      refine ⟨cf, kf,
        Event.setControls
          { c with steering := pure_pursuit_control (poses j) 180 target } :: evs,
        ?_, h1, h2, h3⟩
      unfold goReverseLoop
      rw [if_pos hdc]
      simp only
      rw [hstep]
      have hpos : poses j = reversePos poses p0 (j + 1) := rfl
      rw [hpos] at heq ⊢
      rw [heq]
    · refine ⟨{ c with is_manual_gear := false, manual_gear := 0, throttle := 0 }, j,
        [Event.setControls
          { c with is_manual_gear := false, manual_gear := 0, throttle := 0 }],
        ?_, rfl, rfl, rfl⟩
      unfold goReverseLoop
      rw [if_neg hdc]
  
lemma goReverseLoop_diverge {poses : ℕ → Coord} {target : Coord} {p0 : Coord}
    (hall : ∀ k, reverseAccum poses p0 k < 5) (m : ℕ) :
    ∀ j : ℕ, ∀ c : CarControls,
      goReverseLoop poses target m j (reverseAccum poses p0 j)
        (reversePos poses p0 j) c = none := by
  induction m with
  | zero =>
    intro j c
    unfold goReverseLoop
    rw [if_pos (hall j)]
  | succ m ih =>
    intro j c
    unfold goReverseLoop
    rw [if_pos (hall j)]
    simp only
    have hstep : reverseAccum poses p0 j +
        distance (reversePos poses p0 j) (poses j) =
          reverseAccum poses p0 (j + 1) := rfl
    rw [hstep]
    have hpos : poses j = reversePos poses p0 (j + 1) := rfl
    rw [hpos]
    rw [ih (j + 1)]

/-- C8: the reverse-recovery maneuver terminates exactly when the accumulated
Euclidean displacement between successive poses eventually reaches the fixed
threshold of 5 distance units; on completion it disengages the manual gear
(off and set to 0) and zeroes the throttle, and if the accumulated displacement
never reaches 5 units, no amount of fuel completes the loop. -/
theorem go_reverse_termination (poses : ℕ → Coord) (p0 target : Coord)
    (c : CarControls) :
    ((∃ k, 5 ≤ reverseAccum poses p0 k) →
      ∃ fuel cf kf evs,
        go_reverse poses p0 target c fuel = some (cf, kf, evs) ∧
          cf.is_manual_gear = false ∧ cf.manual_gear = 0 ∧ cf.throttle = 0) ∧
    ((∀ k, reverseAccum poses p0 k < 5) →
      ∀ fuel, go_reverse poses p0 target c fuel = none) := by
  constructor
  · rintro ⟨k, hk⟩
    have h0 : 5 ≤ reverseAccum poses p0 (0 + k) := by
      rw [Nat.zero_add]
      exact hk
    obtain ⟨cf, kf, evs, heq, h1, h2, h3⟩ := goReverseLoop_exit k 0 h0
      { c with throttle := -0.3, is_manual_gear := true, manual_gear := -1 }
    exact ⟨k, cf, kf, evs, heq, h1, h2, h3⟩
  · intro hall fuel
    exact goReverseLoop_diverge hall fuel 0 _

lemma distance_horizontal (a b : ℝ) : distance (a, 0) (b, 0) = |a - b| := by
  unfold distance
  simp only
  rw [sub_zero 0]
  norm_num
  exact Real.sqrt_sq_eq_abs (a - b)

theorem go_reverse_termination_witness :
    ((∃ k, 5 ≤ reverseAccum (fun _ => ((5:ℝ), 0)) (0, 0) k) ∧
      ∃ fuel cf kf evs,
        go_reverse (fun _ => ((5:ℝ), 0)) (0, 0) (9, 9) ⟨0, 0, 0, false, 0⟩ fuel =
            some (cf, kf, evs) ∧
          cf.is_manual_gear = false ∧ cf.manual_gear = 0 ∧ cf.throttle = 0) ∧
    ((∀ k, reverseAccum (fun _ => ((0:ℝ), 0)) (0, 0) k < 5) ∧
      ∀ fuel,
        go_reverse (fun _ => ((0:ℝ), 0)) (0, 0) (9, 9) ⟨0, 0, 0, false, 0⟩ fuel =
          none) := by
  have hmove : ∃ k, 5 ≤ reverseAccum (fun _ => ((5:ℝ), 0)) (0, 0) k := by
    refine ⟨1, ?_⟩
    show (5:ℝ) ≤ reverseAccum (fun _ => ((5:ℝ), 0)) (0, 0) 0 +
      distance (reversePos (fun _ => ((5:ℝ), 0)) (0, 0) 0) ((5:ℝ), 0)
    show (5:ℝ) ≤ 0 + distance ((0:ℝ), (0:ℝ)) ((5:ℝ), 0)
    rw [zero_add, distance_horizontal]
    norm_num
  have hstill : ∀ k, reverseAccum (fun _ => ((0:ℝ), 0)) (0, 0) k < 5 := by
    have hzero : ∀ k, reverseAccum (fun _ => ((0:ℝ), 0)) (0, 0) k = 0 := by
      intro k
      induction k with
      | zero => rfl
      | succ k ih =>
        show reverseAccum (fun _ => ((0:ℝ), 0)) (0, 0) k +
          distance (reversePos (fun _ => ((0:ℝ), 0)) (0, 0) k) ((0:ℝ), 0) = 0
        have hp : reversePos (fun _ => ((0:ℝ), 0)) ((0:ℝ), (0:ℝ)) k = ((0:ℝ), 0) := by
          cases k with
          | zero => rfl
          | succ k => rfl
        rw [ih, hp, distance_self, add_zero]
    intro k
    rw [hzero k]
    norm_num
  exact ⟨⟨hmove, (go_reverse_termination _ _ (9, 9) ⟨0, 0, 0, false, 0⟩).1 hmove⟩,
    ⟨hstill, (go_reverse_termination _ _ (9, 9) ⟨0, 0, 0, false, 0⟩).2 hstill⟩⟩

/-- The simulator environment observed by `control_vehicle`: pose, heading and
sensor frame reported at each successive client read. -/
structure Env where
  pose : ℕ → Coord
  heading : ℕ → ℝ
  sensors : ℕ → SensorFrame

/-- One waypoint's `while True` loop of `control_vehicle` (lines 85-122 of
`core/control.py`), with fuel bounding the number of ticks: per tick, read
pose/heading/sensors, run the safety checks (`controlTick`), issue the
command(s), break when within 5 units of the waypoint, otherwise update the
stuck detector and possibly run reverse-recovery. Returns the next client-read
index, the controls, the stuck state and the issued events. -/
def waypointLoop (env : Env) (waypoint : Coord) :
    ℕ → ℕ → CarControls → Option Coord × ℕ →
    Option (ℕ × CarControls × (Option Coord × ℕ) × List Event)
  | 0, _, _, _ => none
  | fuel + 1, t, c, stuck =>
    let pos := env.pose t
    let hd := env.heading t
    let s := env.sensors t
    let r := controlTick pos hd waypoint s c
    let afterSafety : Option (ℕ × CarControls × List Event) :=
      match r.2 with
      | Maneuver.reverse _ _ =>
        match go_reverse (fun i => env.pose (t + 1 + i)) pos waypoint r.1
            (fuel + 1) with
        | none => none
        | some (c2, k, evs2) =>
          some (t + 1 + k, c2,
            Event.setControls r.1 :: evs2 ++ [Event.setControls c2])
      | _ => some (t + 1, r.1, [Event.setControls r.1])
    match afterSafety with
    | none => none
    | some (t1, c1, evs1) =>
      if distance pos waypoint < 5 then some (t1, c1, stuck, evs1)
      else
        let su := stuckStep stuck pos
        if su.2 then
          match go_reverse (fun i => env.pose (t1 + i)) pos waypoint c1
              (fuel + 1) with
          | none => none
          | some (c3, k3, evs3) =>
            match waypointLoop env waypoint fuel (t1 + k3) c3 su.1 with
            | none => none
            | some (t4, c4, st4, evs4) => some (t4, c4, st4, evs1 ++ evs3 ++ evs4)
        else
          match waypointLoop env waypoint fuel t1 c1 su.1 with
          | none => none
          | some (t4, c4, st4, evs4) => some (t4, c4, st4, evs1 ++ evs4)

/-- The outer `for waypoint in path` loop of `control_vehicle` plus the final
stop block (lines 84 and 124-128 of `core/control.py`): after the route is
exhausted, zero throttle, apply the brake, issue that final command once, and
release API control. -/
def routeLoop (env : Env) (fuel : ℕ) :
    List Coord → ℕ → CarControls → Option Coord × ℕ → Option (List Event)
  | [], _, c, _ =>
    some [Event.setControls { c with throttle := 0, brake := 1 },
      Event.enableApi false]
  | wp :: rest, t, c, stuck =>
    match waypointLoop env wp fuel t c stuck with
    | none => none
    | some (t1, c1, st1, evs1) =>
      match routeLoop env fuel rest t1 c1 st1 with
      | none => none
      | some evs2 => some (evs1 ++ evs2)

/-- Embedding of `core/control.py::control_vehicle` as a trace interpreter over
an environment of client responses. -/
def control_vehicle (env : Env) (path : List Coord) (c : CarControls)
    (fuel : ℕ) : Option (List Event) :=
  routeLoop env fuel path 0 c (none, 0)

lemma routeLoop_terminal (env : Env) (fuel : ℕ) :
    ∀ (path : List Coord) (t : ℕ) (c : CarControls) (stuck : Option Coord × ℕ)
      (tr : List Event), routeLoop env fuel path t c stuck = some tr →
      ∃ pre cf, tr = pre ++ [Event.setControls cf, Event.enableApi false] ∧
        cf.throttle = 0 ∧ cf.brake = 1 := by
  intro path
  induction path with
  | nil =>
    intro t c stuck tr htr
    unfold routeLoop at htr
    refine ⟨[], { c with throttle := 0, brake := 1 }, ?_, rfl, rfl⟩
    simpa using htr.symm
  | cons wp rest ih =>
    intro t c stuck tr htr
    unfold routeLoop at htr
    rcases hw : waypointLoop env wp fuel t c stuck with _ | ⟨t1, c1, st1, evs1⟩
    · rw [hw] at htr
      simp at htr
    · rw [hw] at htr
      dsimp only at htr
      rcases hr : routeLoop env fuel rest t1 c1 st1 with _ | evs2
      · rw [hr] at htr
        simp at htr
      · rw [hr] at htr
        simp only [Option.some.injEq] at htr
        obtain ⟨pre, cf, hpre, hthr, hbr⟩ := ih t1 c1 st1 evs2 hr
        refine ⟨evs1 ++ pre, cf, ?_, hthr, hbr⟩
        rw [← htr, hpre, List.append_assoc]

/-- C9: whenever `control_vehicle` completes its route (the interpreter returns
a trace), the trace ends with exactly one final command carrying zero throttle
and the brake applied, immediately followed by the release of API control; for
the empty route this terminal behaviour occurs immediately and the trace holds
no other command at all. -/
theorem control_vehicle_terminal (env : Env) (c : CarControls) :
    (∀ (path : List Coord) (fuel : ℕ) (tr : List Event),
      control_vehicle env path c fuel = some tr →
      ∃ pre cf, tr = pre ++ [Event.setControls cf, Event.enableApi false] ∧
        cf.throttle = 0 ∧ cf.brake = 1) ∧
    (∀ fuel : ℕ, control_vehicle env [] c fuel =
      some [Event.setControls { c with throttle := 0, brake := 1 },
        Event.enableApi false]) := by
  constructor
  · intro path fuel tr htr
    exact routeLoop_terminal env fuel path 0 c (none, 0) tr htr
  · intro fuel
    rfl

theorem control_vehicle_terminal_witness :
    control_vehicle ⟨fun _ => (0, 0), fun _ => 0, fun _ => ⟨9, 9, 9, 9, 9, 9, 9, 9⟩⟩
        [] ⟨0, 0, 0, false, 0⟩ 0 =
      some [Event.setControls ⟨0, 0, 1, false, 0⟩, Event.enableApi false] ∧
    ∃ pre cf,
      [Event.setControls (⟨0, 0, 1, false, 0⟩ : CarControls), Event.enableApi false] =
          pre ++ [Event.setControls cf, Event.enableApi false] ∧
        cf.throttle = 0 ∧ cf.brake = 1 := by
  have henv := control_vehicle_terminal
    ⟨fun _ => (0, 0), fun _ => 0, fun _ => ⟨9, 9, 9, 9, 9, 9, 9, 9⟩⟩
    ⟨0, 0, 0, false, 0⟩
  have hrun : control_vehicle
      ⟨fun _ => (0, 0), fun _ => 0, fun _ => ⟨9, 9, 9, 9, 9, 9, 9, 9⟩⟩
      [] ⟨0, 0, 0, false, 0⟩ 0 =
      some [Event.setControls ⟨0, 0, 1, false, 0⟩, Event.enableApi false] :=
    henv.2 0
  exact ⟨hrun, henv.1 [] 0 _ hrun⟩

/-- Modelled from the spec: the Roadmap supplied by `config/coordinates.py` and
`config/graph.py`, which are not under `src/`. Per §3 of the spec it is two
aligned mappings over a finite set of nodes — a coordinate for every node and a
directed adjacency whose neighbour lists contain only Roadmap nodes — with the
dict iteration order of the node keys (unique, as Python dict keys) kept
explicitly for nearest-node tie-breaking. -/
structure Roadmap (N : Type) where
  nodes : List N
  coord : N → Coord
  adj : N → List N
  nodes_nodup : nodes.Nodup
  adj_mem : ∀ u ∈ nodes, ∀ v ∈ adj u, v ∈ nodes

/-- Python's `min(iterable, key=k)`: scan left to right, replacing the current
best only on a strictly smaller key, so the first minimum wins. -/
def pymin {N : Type} (key : N → ℝ) : List N → Option N
  | [] => none
  | x :: xs => some (xs.foldl (fun b n => if key n < key b then n else b) x)

/-- The nearest-node snapping at lines 38-39 of `core/astar.py`:
`min(coordinates, key=lambda node: heuristic(q, coordinates[node]))`. -/
def nearestNode {N : Type} (rm : Roadmap N) (q : Coord) : Option N :=
  pymin (fun node => heuristic q (rm.coord node)) rm.nodes

lemma pymin_foldl_spec {N : Type} (key : N → ℝ) :
    ∀ (xs : List N) (b : N),
      (key (xs.foldl (fun b n => if key n < key b then n else b) b) ≤ key b ∧
        ∀ n ∈ xs, key (xs.foldl (fun b n => if key n < key b then n else b) b) ≤ key n) ∧
      (xs.foldl (fun b n => if key n < key b then n else b) b = b ∨
        ∃ pre post, xs = pre ++ (xs.foldl (fun b n => if key n < key b then n else b) b) :: post ∧
          key (xs.foldl (fun b n => if key n < key b then n else b) b) < key b ∧
          ∀ n ∈ pre, key (xs.foldl (fun b n => if key n < key b then n else b) b) < key n) := by
  intro xs
  induction xs with
  | nil => intro b; exact ⟨⟨le_refl _, by simp⟩, Or.inl rfl⟩
  | cons x xs ih =>
    intro b
    by_cases hx : key x < key b
    · have hstep : (x :: xs).foldl (fun b n => if key n < key b then n else b) b =
          xs.foldl (fun b n => if key n < key b then n else b) x := by
        simp [List.foldl_cons, if_pos hx]
      obtain ⟨⟨hle, hall⟩, hcase⟩ := ih x
      constructor
      · constructor
        · rw [hstep]; exact le_trans hle (le_of_lt hx)
        · intro n hn
          rw [hstep]
          rcases List.mem_cons.mp hn with rfl | hn'
          · exact hle
          · exact hall n hn'
      · right
        rcases hcase with heq | ⟨pre, post, hsplit, hlt, hpre⟩
        · refine ⟨[], xs, ?_, ?_, by simp⟩
          · rw [hstep, heq]
            rfl
          · rw [hstep, heq]; exact hx
        · refine ⟨x :: pre, post, ?_, ?_, ?_⟩
          · rw [hstep, List.cons_append, ← hsplit]
          · rw [hstep]; exact lt_trans hlt hx
          · intro n hn
            rw [hstep]
            rcases List.mem_cons.mp hn with rfl | hn'
            · exact hlt
            · exact hpre n hn'
    · have hstep : (x :: xs).foldl (fun b n => if key n < key b then n else b) b =
          xs.foldl (fun b n => if key n < key b then n else b) b := by
        simp [List.foldl_cons, if_neg hx]
      obtain ⟨⟨hle, hall⟩, hcase⟩ := ih b
      constructor
      · constructor
        · rw [hstep]; exact hle
        · intro n hn
          rw [hstep]
          rcases List.mem_cons.mp hn with rfl | hn'
          · exact le_trans hle (not_lt.mp hx)
          · exact hall n hn'
      · rcases hcase with heq | ⟨pre, post, hsplit, hlt, hpre⟩
        · left; rw [hstep, heq]
        · right
          refine ⟨x :: pre, post, ?_, ?_, ?_⟩
          · rw [hstep, List.cons_append, ← hsplit]
          · rw [hstep]; exact hlt
          · intro n hn
            rw [hstep]
            rcases List.mem_cons.mp hn with rfl | hn'
            · exact lt_of_lt_of_le hlt (not_lt.mp hx)
            · exact hpre n hn'

lemma heuristic_nonneg (a b : Coord) : 0 ≤ heuristic a b := Real.sqrt_nonneg _

lemma heuristic_self (a : Coord) : heuristic a a = 0 := by
  unfold heuristic
  simp

lemma heuristic_eq_zero_iff {a b : Coord} : heuristic a b = 0 ↔ a = b := by
  unfold heuristic
  rw [Real.sqrt_eq_zero (by positivity)]
  constructor
  · intro h
    have h1 : (a.1 - b.1) ^ 2 = 0 ∧ (a.2 - b.2) ^ 2 = 0 := by
      constructor <;> nlinarith [sq_nonneg (a.1 - b.1), sq_nonneg (a.2 - b.2)]
    have hx : a.1 = b.1 := by nlinarith [h1.1]
    have hy : a.2 = b.2 := by nlinarith [h1.2]
    exact Prod.ext hx hy
  · rintro rfl
    ring

/-- Helper: for a non-empty Roadmap, the nearest-node snapping returns the
node minimizing the Euclidean distance to the query, with ties broken by
returning the first minimum in Roadmap iteration order; and when the query
coincides with the coordinate of a node that is the unique node at that
coordinate, that node is returned. -/
lemma nearestNode_min {N : Type} (rm : Roadmap N) (q : Coord)
    (hne : rm.nodes ≠ []) :
    ∃ m, nearestNode rm q = some m ∧ m ∈ rm.nodes ∧
      (∀ n ∈ rm.nodes, heuristic q (rm.coord m) ≤ heuristic q (rm.coord n)) ∧
      (∃ pre post, rm.nodes = pre ++ m :: post ∧
        ∀ n ∈ pre, heuristic q (rm.coord m) < heuristic q (rm.coord n)) ∧
      (∀ n₀ ∈ rm.nodes, rm.coord n₀ = q →
        (∀ n ∈ rm.nodes, rm.coord n = q → n = n₀) → m = n₀) := by
  set key : N → ℝ := fun node => heuristic q (rm.coord node) with hkey
  obtain ⟨x, xs, hl⟩ : ∃ x xs, rm.nodes = x :: xs := by
    cases hn : rm.nodes with
    | nil => exact absurd hn hne
    | cons a as => exact ⟨a, as, rfl⟩
  obtain ⟨⟨hle, hall⟩, hcase⟩ := pymin_foldl_spec key xs x
  set m := xs.foldl (fun b n => if key n < key b then n else b) x with hm
  have hmem : m ∈ rm.nodes := by
    rw [hl]
    rcases hcase with heq | ⟨pre, post, hsplit, _, _⟩
    · rw [heq]; exact List.mem_cons_self x xs
    · rw [hsplit]
      exact List.mem_cons_of_mem x (List.mem_append_right pre (List.mem_cons_self m post))
  have hmin : ∀ n ∈ rm.nodes, key m ≤ key n := by
    intro n hn
    rw [hl] at hn
    rcases List.mem_cons.mp hn with rfl | hn'
    · exact hle
    · exact hall n hn'
  have hres : nearestNode rm q = some m := by
    unfold nearestNode
    rw [hl]
    rfl
  refine ⟨m, hres, hmem, hmin, ?_, ?_⟩
  · rcases hcase with heq | ⟨pre, post, hsplit, hlt, hpre⟩
    · refine ⟨[], xs, ?_, by simp⟩
      rw [hl, heq]
      rfl
    · refine ⟨x :: pre, post, ?_, ?_⟩
      · rw [hl, hsplit, List.cons_append]
      · intro n hn
        rcases List.mem_cons.mp hn with rfl | hn'
        · exact hlt
        · exact hpre n hn'
  · intro n₀ hn₀ hcoord huniq
    have h0 : key n₀ = 0 := by
      rw [hkey]
      simp only
      rw [hcoord, heuristic_self]
    have hm0 : key m = 0 :=
      le_antisymm (by rw [← h0]; exact hmin n₀ hn₀) (heuristic_nonneg _ _)
    have : rm.coord m = q := by
      have := heuristic_eq_zero_iff.mp hm0
      exact this.symm
    exact huniq m hmem this

/-- C7 amended: for a non-empty Roadmap, the nearest-node snapping returns the
node minimizing the Euclidean distance to the query, with ties broken by
returning the first minimum in Roadmap iteration order; and when the query
coincides with the coordinate of a node that is the unique node at that
coordinate, that node is returned. -/
theorem nearestNode_spec {N : Type} (rm : Roadmap N) (q : Coord)
    (hne : rm.nodes ≠ []) :
    ∃ m, nearestNode rm q = some m ∧ m ∈ rm.nodes ∧
      (∀ n ∈ rm.nodes, heuristic q (rm.coord m) ≤ heuristic q (rm.coord n)) ∧
      (∃ pre post, rm.nodes = pre ++ m :: post ∧
        ∀ n ∈ pre, heuristic q (rm.coord m) < heuristic q (rm.coord n)) ∧
      (∀ n₀ ∈ rm.nodes, rm.coord n₀ = q →
        (∀ n ∈ rm.nodes, rm.coord n = q → n = n₀) → m = n₀) :=
  nearestNode_min rm q hne

/-- The roadmap on nodes 0 and 1 at the same coordinate, used to refute
the original exact-coordinate tie claim. -/
def rmDup : Roadmap ℕ where
  nodes := [0, 1]
  coord := fun _ => (0, 0)
  adj := fun _ => []
  nodes_nodup := by decide
  adj_mem := by intro u _ v hv; cases hv

/-- C7 counterexample: in a Roadmap where node 1's coordinate equals the query
(0,0) but node 0 shares that coordinate and comes first in iteration order, the
snapping does not return node 1, refuting "for a query coordinate exactly equal
to some node's coordinate, that node is selected". -/
theorem nearestNode_duplicate_counterexample :
    (1 ∈ rmDup.nodes ∧ rmDup.coord 1 = (0, 0)) ∧
      nearestNode rmDup (0, 0) ≠ some 1 := by
  constructor
  · exact ⟨by simp [rmDup], rfl⟩
  · have : nearestNode rmDup (0, 0) = some 0 := by
      unfold nearestNode pymin rmDup
      simp
    rw [this]
    simp

set_option linter.unusedSectionVars false

section AstarDevelopment

variable {N : Type} [LinearOrder N]

/-- The set of Euclidean edge weights along the directed edges of a Roadmap. -/
def edgeWeights (rm : Roadmap N) : Set ℝ :=
  {w | ∃ u ∈ rm.nodes, ∃ v ∈ rm.adj u, w = heuristic (rm.coord u) (rm.coord v)}

lemma edgeWeights_nonneg {rm : Roadmap N} {w : ℝ} (hw : w ∈ edgeWeights rm) :
    0 ≤ w := by
  obtain ⟨u, _, v, _, rfl⟩ := hw
  exact heuristic_nonneg _ _

lemma edgeWeights_finite (rm : Roadmap N) : (edgeWeights rm).Finite := by
  have hsub : edgeWeights rm ⊆ ⋃ u ∈ rm.nodes.toFinset, ⋃ v ∈ (rm.adj u).toFinset,
      {heuristic (rm.coord u) (rm.coord v)} := by
    rintro w ⟨u, hu, v, hv, rfl⟩
    simp only [Set.mem_iUnion, Set.mem_singleton_iff]
    exact ⟨u, by simpa using hu, v, by simpa using hv, rfl⟩
  exact (Set.Finite.biUnion (rm.nodes.toFinset.finite_toSet)
    (fun u _ => Set.Finite.biUnion ((rm.adj u).toFinset.finite_toSet)
      (fun v _ => Set.finite_singleton _))).subset hsub

/-- All finite `g_score` values the search can ever hold: finite sums of edge
weights. -/
def scoreSet (rm : Roadmap N) : Set ℝ :=
  (AddSubmonoid.closure (edgeWeights rm) : Set ℝ)

lemma scoreSet_zero (rm : Roadmap N) : (0:ℝ) ∈ scoreSet rm :=
  zero_mem (AddSubmonoid.closure (edgeWeights rm))

lemma scoreSet_add_weight {rm : Roadmap N} {r w : ℝ} (hr : r ∈ scoreSet rm)
    (hw : w ∈ edgeWeights rm) : r + w ∈ scoreSet rm :=
  add_mem hr (AddSubmonoid.subset_closure hw)

lemma scoreSet_nonneg {rm : Roadmap N} {r : ℝ} (hr : r ∈ scoreSet rm) : 0 ≤ r := by
  obtain ⟨l, hl, hsum⟩ := AddSubmonoid.exists_list_of_mem_closure hr
  rw [← hsum]
  exact List.sum_nonneg (fun y hy => edgeWeights_nonneg (hl y hy))

lemma scoreSet_decomp {rm : Roadmap N} {x : ℝ} (hx : x ∈ scoreSet rm)
    (hx0 : x ≠ 0) :
    ∃ d ∈ edgeWeights rm, 0 < d ∧ ∃ y ∈ scoreSet rm, x = d + y := by
  have key : ∀ l : List ℝ, (∀ y ∈ l, y ∈ edgeWeights rm) → l.sum ≠ 0 →
      ∃ d ∈ edgeWeights rm, 0 < d ∧ ∃ y ∈ scoreSet rm, l.sum = d + y := by
    intro l
    induction l with
    | nil =>
      intro _ h0
      exact absurd rfl h0
    | cons a as ih =>
      intro hmem h0
      by_cases ha : a = 0
      · subst ha
        rw [List.sum_cons, zero_add] at h0 ⊢
        exact ih (fun y hy => hmem y (List.mem_cons_of_mem 0 hy)) h0
      · have haE : a ∈ edgeWeights rm := hmem a (List.mem_cons_self a as)
        refine ⟨a, haE, lt_of_le_of_ne (edgeWeights_nonneg haE) (Ne.symm ha), as.sum,
          ?_, by rw [List.sum_cons]⟩
        exact AddSubmonoid.list_sum_mem _ (fun y hy =>
          AddSubmonoid.subset_closure (hmem y (List.mem_cons_of_mem a hy)))
  obtain ⟨l, hl, hsum⟩ := AddSubmonoid.exists_list_of_mem_closure hx
  have h0 : l.sum ≠ 0 := by
    rw [hsum]
    exact hx0
  obtain ⟨d, hdE, hdpos, y, hyS, heq⟩ := key l hl h0
  exact ⟨d, hdE, hdpos, y, hyS, by rw [← hsum, heq]⟩

lemma scoreSet_bounded_finite (rm : Roadmap N) (C : ℝ) :
    {x ∈ scoreSet rm | x < C}.Finite := by
  classical
  have hPfin : {d ∈ edgeWeights rm | 0 < d}.Finite :=
    (edgeWeights_finite rm).subset (fun d hd => hd.1)
  by_cases hPne : {d ∈ edgeWeights rm | 0 < d}.Nonempty
  · obtain ⟨Pf, hPfeq⟩ : ∃ Pf : Finset ℝ,
        ∀ x, x ∈ Pf ↔ x ∈ {d ∈ edgeWeights rm | 0 < d} :=
      ⟨hPfin.toFinset, fun x => Set.Finite.mem_toFinset _⟩
    have hPfne : Pf.Nonempty := by
      obtain ⟨d, hd⟩ := hPne
      exact ⟨d, (hPfeq d).mpr hd⟩
    obtain ⟨ε, hεPf, hεle⟩ : ∃ ε, ε ∈ Pf ∧ ∀ d ∈ Pf, ε ≤ d :=
      ⟨Pf.min' hPfne, Pf.min'_mem hPfne, fun d hd => Pf.min'_le d hd⟩
    have hεpos : 0 < ε := ((hPfeq ε).mp hεPf).2
    have aux : ∀ n : ℕ, ∀ D : ℝ, D ≤ n * ε → {x ∈ scoreSet rm | x < D}.Finite := by
      intro n
      induction n with
      | zero =>
        intro D hD
        rw [Nat.cast_zero, zero_mul] at hD
        refine Set.Finite.subset Set.finite_empty ?_
        rintro x ⟨hxS, hxD⟩
        exact absurd (lt_of_lt_of_le hxD hD) (not_lt.mpr (scoreSet_nonneg hxS))
      | succ n ih =>
        intro D hD
        have hsub : {x ∈ scoreSet rm | x < D} ⊆
            {(0:ℝ)} ∪ ⋃ d ∈ Pf, (fun y => d + y) '' {x ∈ scoreSet rm | x < D - ε} := by
          rintro x ⟨hxS, hxD⟩
          by_cases hx0 : x = 0
          · left
            exact hx0
          · right
            obtain ⟨d, hdE, hdpos, y, hyS, hxy⟩ := scoreSet_decomp hxS hx0
            have hdε : ε ≤ d := hεle d ((hPfeq d).mpr ⟨hdE, hdpos⟩)
            simp only [Set.mem_iUnion, Set.mem_image]
            refine ⟨d, (hPfeq d).mpr ⟨hdE, hdpos⟩, y, ⟨hyS, ?_⟩, hxy.symm⟩
            linarith
        refine Set.Finite.subset ?_ hsub
        refine Set.Finite.union (Set.finite_singleton 0) ?_
        refine Set.Finite.biUnion (Pf.finite_toSet) ?_
        intro d _
        refine Set.Finite.image _ (ih (D - ε) ?_)
        push_cast at hD ⊢
        linarith
    obtain ⟨n, hn⟩ := exists_nat_ge (C / ε)
    have hC : C ≤ n * ε := by
      rw [div_le_iff₀ hεpos] at hn
      linarith
    exact aux n C hC
  · refine Set.Finite.subset (Set.finite_singleton 0) ?_
    rintro x ⟨hxS, _⟩
    by_cases hx0 : x = 0
    · exact hx0
    · obtain ⟨d, hdE, hdpos, _, _, _⟩ := scoreSet_decomp hxS hx0
      exact absurd (Set.nonempty_of_mem
        (show d ∈ {d ∈ edgeWeights rm | 0 < d} from ⟨hdE, hdpos⟩)) hPne

/-- Python tuple comparison on heap entries `(f_score, node)`, as `heapq` uses:
lexicographic, score first then node. -/
def entryLt (a b : WithTop ℝ × N) : Prop := toLex a < toLex b

instance entryLtDec (a b : WithTop ℝ × N) : Decidable (entryLt a b) :=
  inferInstanceAs (Decidable (toLex a < toLex b))

/-- The least entry of the heap: `heapq.heappop` returns the least tuple. -/
def heapMin : List (WithTop ℝ × N) → Option (WithTop ℝ × N)
  | [] => none
  | e :: es => some (es.foldl (fun m x => if entryLt x m then x else m) e)

lemma foldl_min_spec :
    ∀ (xs : List (WithTop ℝ × N)) (b : WithTop ℝ × N),
      (xs.foldl (fun m x => if entryLt x m then x else m) b = b ∨
        xs.foldl (fun m x => if entryLt x m then x else m) b ∈ xs) ∧
      toLex (xs.foldl (fun m x => if entryLt x m then x else m) b) ≤ toLex b ∧
      ∀ e ∈ xs, toLex (xs.foldl (fun m x => if entryLt x m then x else m) b) ≤ toLex e := by
  intro xs
  induction xs with
  | nil =>
    intro b
    exact ⟨Or.inl rfl, le_refl _, by simp⟩
  | cons x xs ih =>
    intro b
    by_cases hx : entryLt x b
    · have hstep : (x :: xs).foldl (fun m x => if entryLt x m then x else m) b =
          xs.foldl (fun m x => if entryLt x m then x else m) x := by
        simp [List.foldl_cons, if_pos hx]
      obtain ⟨hmem, hleb, hall⟩ := ih x
      rw [hstep]
      refine ⟨?_, le_trans hleb (le_of_lt hx), ?_⟩
      · rcases hmem with h | h
        · exact Or.inr (by rw [h]; exact List.mem_cons_self x xs)
        · exact Or.inr (List.mem_cons_of_mem x h)
      · intro e he
        rcases List.mem_cons.mp he with rfl | he'
        · exact hleb
        · exact hall e he'
    · have hstep : (x :: xs).foldl (fun m x => if entryLt x m then x else m) b =
          xs.foldl (fun m x => if entryLt x m then x else m) b := by
        simp [List.foldl_cons, if_neg hx]
      obtain ⟨hmem, hleb, hall⟩ := ih b
      rw [hstep]
      refine ⟨?_, hleb, ?_⟩
      · rcases hmem with h | h
        · exact Or.inl h
        · exact Or.inr (List.mem_cons_of_mem x h)
      · intro e he
        rcases List.mem_cons.mp he with rfl | he'
        · exact le_trans hleb (not_lt.mp hx)
        · exact hall e he'

lemma heapMin_spec {l : List (WithTop ℝ × N)} {m : WithTop ℝ × N}
    (hm : heapMin l = some m) :
    m ∈ l ∧ ∀ e ∈ l, toLex m ≤ toLex e := by
  cases l with
  | nil => exact absurd hm (by simp [heapMin])
  | cons x xs =>
    have hx : m = xs.foldl (fun m x => if entryLt x m then x else m) x := by
      have : some (xs.foldl (fun m x => if entryLt x m then x else m) x) = some m := hm
      exact (Option.some.injEq _ _ ▸ this).symm
    obtain ⟨hmem, hleb, hall⟩ := foldl_min_spec xs x
    subst hx
    constructor
    · rcases hmem with h | h
      · rw [h]
        exact List.mem_cons_self x xs
      · exact List.mem_cons_of_mem x h
    · intro e he
      rcases List.mem_cons.mp he with rfl | he'
      · exact hleb
      · exact hall e he'

lemma heapMin_fst_le {l : List (WithTop ℝ × N)} {m : WithTop ℝ × N}
    (hm : heapMin l = some m) : ∀ e ∈ l, m.1 ≤ e.1 := by
  intro e he
  have h := (heapMin_spec hm).2 e he
  rcases (Prod.Lex.le_iff m e).mp h with h1 | ⟨h1, _⟩
  · exact le_of_lt h1
  · exact le_of_eq h1

/-- The mutable state of the `astar` loop of `core/astar.py` (lines 41-46):
the `open_list` heap contents, and the `came_from`, `g_score`, `f_score`
dictionaries; scores use `⊤` for Python's `float('infinity')`. -/
structure AState (N : Type) where
  openList : List (WithTop ℝ × N)
  cameFrom : N → Option N
  gScore : N → WithTop ℝ
  fScore : N → WithTop ℝ

/-- Euclidean edge weight between two nodes of the Roadmap. -/
def wt (rm : Roadmap N) (u v : N) : ℝ := heuristic (rm.coord u) (rm.coord v)

/-- Relaxation of a single neighbor of the popped node: lines 59-66 of
`core/astar.py` (update `g_score`, `came_from`, `f_score` and push the
neighbor when the tentative score improves). -/
def relaxStep (rm : Roadmap N) (goal_node current_node : N) (st : AState N)
    (neighbor : N) : AState N :=
  let neighbor_coord := rm.coord neighbor
  let tentative_g_score := st.gScore current_node +
    ((heuristic (rm.coord current_node) neighbor_coord : ℝ) : WithTop ℝ)
  if tentative_g_score < st.gScore neighbor then
    let f := tentative_g_score +
      ((heuristic neighbor_coord (rm.coord goal_node) : ℝ) : WithTop ℝ)
    { openList := st.openList ++ [(f, neighbor)]
      cameFrom := Function.update st.cameFrom neighbor (some current_node)
      gScore := Function.update st.gScore neighbor tentative_g_score
      fScore := Function.update st.fScore neighbor f }
  else st

/-- The `for neighbor in graph[current_node]` loop (lines 58-66). -/
def relaxAll (rm : Roadmap N) (goal_node current_node : N) (st : AState N) :
    AState N :=
  (rm.adj current_node).foldl (relaxStep rm goal_node current_node) st

lemma relaxStep_cases (rm : Roadmap N) (goal_node current_node : N)
    (st : AState N) (neighbor : N) :
    (¬ (st.gScore current_node + ((wt rm current_node neighbor : ℝ) : WithTop ℝ) <
        st.gScore neighbor) ∧
      relaxStep rm goal_node current_node st neighbor = st) ∨
    ((st.gScore current_node + ((wt rm current_node neighbor : ℝ) : WithTop ℝ) <
        st.gScore neighbor) ∧
      relaxStep rm goal_node current_node st neighbor =
        { openList := st.openList ++
            [(st.gScore current_node + ((wt rm current_node neighbor : ℝ) : WithTop ℝ) +
              ((wt rm neighbor goal_node : ℝ) : WithTop ℝ), neighbor)]
          cameFrom := Function.update st.cameFrom neighbor (some current_node)
          gScore := Function.update st.gScore neighbor
            (st.gScore current_node + ((wt rm current_node neighbor : ℝ) : WithTop ℝ))
          fScore := Function.update st.fScore neighbor
            (st.gScore current_node + ((wt rm current_node neighbor : ℝ) : WithTop ℝ) +
              ((wt rm neighbor goal_node : ℝ) : WithTop ℝ)) }) := by
  unfold relaxStep wt
  by_cases h : st.gScore current_node +
      ((heuristic (rm.coord current_node) (rm.coord neighbor) : ℝ) : WithTop ℝ) <
      st.gScore neighbor
  · right
    exact ⟨h, by rw [if_pos h]⟩
  · left
    exact ⟨h, by rw [if_neg h]⟩

lemma wt_nonneg (rm : Roadmap N) (u v : N) : 0 ≤ wt rm u v := heuristic_nonneg _ _

lemma wt_self (rm : Roadmap N) (u : N) : wt rm u u = 0 := heuristic_self _

lemma le_add_wt (a : WithTop ℝ) {w : ℝ} (hw : 0 ≤ w) : a ≤ a + (w : WithTop ℝ) := by
  nth_rewrite 1 [← add_zero a]
  refine add_le_add_left ?_ a
  rw [← WithTop.coe_zero]
  exact WithTop.coe_le_coe.mpr hw

/-- The facts carried through the `astar` loop definition for termination:
every finite `g` score is a finite sum of edge weights, and every heap entry's
node is a Roadmap node. -/
def AInv (rm : Roadmap N) (st : AState N) : Prop :=
  (∀ n, st.gScore n = ⊤ ∨ ∃ r : ℝ, st.gScore n = (r : WithTop ℝ) ∧ r ∈ scoreSet rm) ∧
  (∀ e ∈ st.openList, e.2 ∈ rm.nodes)

lemma AInv_g_nonneg {rm : Roadmap N} {st : AState N} (h : AInv rm st) (n : N) :
    0 ≤ st.gScore n := by
  rcases h.1 n with ht | ⟨r, hr, hrS⟩
  · rw [ht]
    exact le_top
  · rw [hr, ← WithTop.coe_zero]
    exact WithTop.coe_le_coe.mpr (scoreSet_nonneg hrS)

lemma relaxStep_g_le (rm : Roadmap N) (goal_node cur : N) (st : AState N)
    (nbr n : N) :
    (relaxStep rm goal_node cur st nbr).gScore n ≤ st.gScore n := by
  rcases relaxStep_cases rm goal_node cur st nbr with ⟨_, heq⟩ | ⟨hlt, heq⟩
  · rw [heq]
  · rw [heq]
    dsimp only
    by_cases hn : n = nbr
    · subst hn
      rw [Function.update_same]
      exact le_of_lt hlt
    · rw [Function.update_noteq hn]

lemma relaxStep_g_cur (rm : Roadmap N) (goal_node cur : N) (st : AState N)
    (nbr : N) :
    (relaxStep rm goal_node cur st nbr).gScore cur = st.gScore cur := by
  rcases relaxStep_cases rm goal_node cur st nbr with ⟨_, heq⟩ | ⟨hlt, heq⟩
  · rw [heq]
  · rw [heq]
    dsimp only
    have hne : cur ≠ nbr := by
      rintro rfl
      rw [wt_self, WithTop.coe_zero, add_zero] at hlt
      exact lt_irrefl _ hlt
    rw [Function.update_noteq hne]

lemma relaxStep_openList_mem (rm : Roadmap N) (goal_node cur : N) (st : AState N)
    (nbr : N) {e : WithTop ℝ × N} (he : e ∈ st.openList) :
    e ∈ (relaxStep rm goal_node cur st nbr).openList := by
  rcases relaxStep_cases rm goal_node cur st nbr with ⟨_, heq⟩ | ⟨hlt, heq⟩
  · rw [heq]
    exact he
  · rw [heq]
    exact List.mem_append_left _ he

lemma relaxStep_AInv {rm : Roadmap N} {goal_node cur : N} {st : AState N}
    {nbr : N} (hinv : AInv rm st) (hcur : cur ∈ rm.nodes)
    (hnbr : nbr ∈ rm.adj cur) :
    AInv rm (relaxStep rm goal_node cur st nbr) := by
  rcases relaxStep_cases rm goal_node cur st nbr with ⟨_, heq⟩ | ⟨hlt, heq⟩
  · rw [heq]
    exact hinv
  · have htne : st.gScore cur + ((wt rm cur nbr : ℝ) : WithTop ℝ) ≠ ⊤ :=
      ne_top_of_lt hlt
    have hgcur : st.gScore cur ≠ ⊤ := by
      intro hc
      rw [hc, top_add] at htne
      exact htne rfl
    obtain ⟨r, hr, hrS⟩ := (hinv.1 cur).resolve_left hgcur
    have hwE : wt rm cur nbr ∈ edgeWeights rm := ⟨cur, hcur, nbr, hnbr, rfl⟩
    have htent : st.gScore cur + ((wt rm cur nbr : ℝ) : WithTop ℝ) =
        ((r + wt rm cur nbr : ℝ) : WithTop ℝ) := by
      rw [hr, ← WithTop.coe_add]
    rw [heq]
    constructor
    · intro n
      dsimp only
      by_cases hn : n = nbr
      · rw [hn, Function.update_same, htent]
        exact Or.inr ⟨r + wt rm cur nbr, rfl, scoreSet_add_weight hrS hwE⟩
      · rw [Function.update_noteq hn]
        exact hinv.1 n
    · intro e he
      dsimp only at he
      rcases List.mem_append.mp he with h | h
      · exact hinv.2 e h
      · have : e = (st.gScore cur + ((wt rm cur nbr : ℝ) : WithTop ℝ) +
            ((wt rm nbr goal_node : ℝ) : WithTop ℝ), nbr) := by simpa using h
        rw [this]
        exact rm.adj_mem cur hcur nbr hnbr

lemma relaxList_g_le (rm : Roadmap N) (goal_node cur : N) :
    ∀ (ns : List N) (st : AState N) (n : N),
      (ns.foldl (relaxStep rm goal_node cur) st).gScore n ≤ st.gScore n := by
  intro ns
  induction ns with
  | nil => intro st n; exact le_refl _
  | cons x xs ih =>
    intro st n
    exact le_trans (ih (relaxStep rm goal_node cur st x) n)
      (relaxStep_g_le rm goal_node cur st x n)

lemma relaxList_g_cur (rm : Roadmap N) (goal_node cur : N) :
    ∀ (ns : List N) (st : AState N),
      (ns.foldl (relaxStep rm goal_node cur) st).gScore cur = st.gScore cur := by
  intro ns
  induction ns with
  | nil => intro st; rfl
  | cons x xs ih =>
    intro st
    rw [List.foldl_cons, ih, relaxStep_g_cur]

lemma relaxList_openList_mem (rm : Roadmap N) (goal_node cur : N) :
    ∀ (ns : List N) (st : AState N) {e : WithTop ℝ × N}, e ∈ st.openList →
      e ∈ (ns.foldl (relaxStep rm goal_node cur) st).openList := by
  intro ns
  induction ns with
  | nil => intro st e he; exact he
  | cons x xs ih =>
    intro st e he
    exact ih _ (relaxStep_openList_mem rm goal_node cur st x he)

lemma relaxList_AInv {rm : Roadmap N} {goal_node cur : N} :
    ∀ (ns : List N) (st : AState N), AInv rm st → cur ∈ rm.nodes →
      (∀ n ∈ ns, n ∈ rm.adj cur) →
      AInv rm (ns.foldl (relaxStep rm goal_node cur) st) := by
  intro ns
  induction ns with
  | nil => intro st h _ _; exact h
  | cons x xs ih =>
    intro st h hcur hmem
    exact ih _ (relaxStep_AInv h hcur (hmem x (List.mem_cons_self x xs))) hcur
      (fun n hn => hmem n (List.mem_cons_of_mem x hn))

lemma relaxAll_AInv {rm : Roadmap N} {goal_node cur : N} {st : AState N}
    (h : AInv rm st) (hcur : cur ∈ rm.nodes) :
    AInv rm (relaxAll rm goal_node cur st) :=
  relaxList_AInv _ _ h hcur (fun _ hn => hn)

/-- Number of nodes whose `g_score` is still infinite. -/
def topCount (rm : Roadmap N) (st : AState N) : ℕ :=
  (rm.nodes.toFinset.filter (fun n => st.gScore n = ⊤)).card

/-- Number of candidate score values strictly below a given score. -/
def rankBelow (rm : Roadmap N) (t : WithTop ℝ) : ℕ :=
  {y ∈ scoreSet rm | (y : WithTop ℝ) < t}.ncard

/-- Total rank of the finite `g` scores over the Roadmap nodes. -/
def rankSum (rm : Roadmap N) (st : AState N) : ℕ :=
  ∑ n ∈ rm.nodes.toFinset, rankBelow rm (st.gScore n)

lemma rankBelow_coe (rm : Roadmap N) (x : ℝ) :
    rankBelow rm (x : WithTop ℝ) = {y ∈ scoreSet rm | y < x}.ncard := by
  unfold rankBelow
  congr 1
  ext y
  simp [WithTop.coe_lt_coe]

lemma rankBelow_lt_of_lt {rm : Roadmap N} {a b : ℝ} (haS : a ∈ scoreSet rm)
    (hab : a < b) :
    rankBelow rm (a : WithTop ℝ) < rankBelow rm (b : WithTop ℝ) := by
  rw [rankBelow_coe, rankBelow_coe]
  refine Set.ncard_lt_ncard ?_ (scoreSet_bounded_finite rm b)
  have hsub : {y ∈ scoreSet rm | y < a} ⊆ {y ∈ scoreSet rm | y < b} := by
    rintro y ⟨h1, h2⟩
    exact ⟨h1, lt_trans h2 hab⟩
  rw [Set.ssubset_iff_of_subset hsub]
  exact ⟨a, ⟨haS, hab⟩, fun h => absurd h.2 (lt_irrefl a)⟩

lemma rankBelow_mono {rm : Roadmap N} {s t : WithTop ℝ} (hst : s ≤ t)
    (ht : t ≠ ⊤) : rankBelow rm s ≤ rankBelow rm t := by
  obtain ⟨b, rfl⟩ : ∃ b : ℝ, t = (b : WithTop ℝ) := by
    cases t with
    | top => exact absurd rfl ht
    | coe b => exact ⟨b, rfl⟩
  unfold rankBelow
  refine Set.ncard_le_ncard ?_ ?_
  · exact fun y hy => ⟨hy.1, lt_of_lt_of_le hy.2 hst⟩
  · have : {y ∈ scoreSet rm | (y : WithTop ℝ) < (b : WithTop ℝ)} =
        {y ∈ scoreSet rm | y < b} := by
      ext y
      simp [WithTop.coe_lt_coe]
    rw [this]
    exact scoreSet_bounded_finite rm b

/-- Strict decrease of the first two measure components. -/
def MDec (rm : Roadmap N) (st' st : AState N) : Prop :=
  topCount rm st' < topCount rm st ∨
  (topCount rm st' = topCount rm st ∧ rankSum rm st' < rankSum rm st)

lemma MDec_trans {rm : Roadmap N} {st2 st1 st : AState N}
    (h21 : MDec rm st2 st1) (h10 : MDec rm st1 st) : MDec rm st2 st := by
  rcases h21 with h21 | ⟨he21, hr21⟩
  · rcases h10 with h10 | ⟨he10, _⟩
    · exact Or.inl (lt_trans h21 h10)
    · exact Or.inl (he10 ▸ h21)
  · rcases h10 with h10 | ⟨he10, hr10⟩
    · exact Or.inl (he21 ▸ h10)
    · exact Or.inr ⟨he21.trans he10, lt_trans hr21 hr10⟩

lemma relaxStep_measure {rm : Roadmap N} {goal_node cur : N} {st : AState N}
    {nbr : N} (hinv : AInv rm st) (hcur : cur ∈ rm.nodes)
    (hnbr : nbr ∈ rm.adj cur) :
    relaxStep rm goal_node cur st nbr = st ∨
      MDec rm (relaxStep rm goal_node cur st nbr) st := by
  rcases relaxStep_cases rm goal_node cur st nbr with ⟨_, heq⟩ | ⟨hlt, heq⟩
  · exact Or.inl heq
  · right
    have hnbrN : nbr ∈ rm.nodes := rm.adj_mem cur hcur nbr hnbr
    have htne : st.gScore cur + ((wt rm cur nbr : ℝ) : WithTop ℝ) ≠ ⊤ :=
      ne_top_of_lt hlt
    have hgcur : st.gScore cur ≠ ⊤ := by
      intro hc
      rw [hc, top_add] at htne
      exact htne rfl
    obtain ⟨r, hr, hrS⟩ := (hinv.1 cur).resolve_left hgcur
    have hwE : wt rm cur nbr ∈ edgeWeights rm := ⟨cur, hcur, nbr, hnbr, rfl⟩
    have htent : st.gScore cur + ((wt rm cur nbr : ℝ) : WithTop ℝ) =
        ((r + wt rm cur nbr : ℝ) : WithTop ℝ) := by
      rw [hr, ← WithTop.coe_add]
    have hgupd : (relaxStep rm goal_node cur st nbr).gScore =
        Function.update st.gScore nbr
          (st.gScore cur + ((wt rm cur nbr : ℝ) : WithTop ℝ)) := by
      rw [heq]
    rcases hgtop : st.gScore nbr with _ | ⟨ro⟩
    · -- nbr's score was infinite: topCount strictly decreases
      left
      unfold topCount
      refine Finset.card_lt_card ?_
      rw [Finset.ssubset_iff_of_subset ?_]
      · refine ⟨nbr, ?_, ?_⟩
        · rw [Finset.mem_filter]
          exact ⟨by simpa using hnbrN, hgtop⟩
        · rw [Finset.mem_filter]
          rintro ⟨-, habs⟩
          rw [hgupd, Function.update_same] at habs
          exact htne habs
      · intro n hn
        rw [Finset.mem_filter] at hn ⊢
        refine ⟨hn.1, ?_⟩
        have hne : n ≠ nbr := by
          rintro rfl
          rw [hgupd, Function.update_same] at hn
          exact htne hn.2
        rw [hgupd, Function.update_noteq hne] at hn
        exact hn.2
    · -- nbr's score was finite: topCount unchanged, rankSum strictly decreases
      right
      obtain ⟨ro', hro', hroS⟩ := (hinv.1 nbr).resolve_left (by
        rw [hgtop]
        exact WithTop.coe_ne_top)
      have hroeq : ro' = ro := by
        rw [hgtop, WithTop.some_eq_coe] at hro'
        exact (WithTop.coe_inj.mp hro').symm
      subst hroeq
      have hlt' : r + wt rm cur nbr < ro' := by
        rw [htent, hgtop, WithTop.some_eq_coe] at hlt
        exact WithTop.coe_lt_coe.mp hlt
      constructor
      · unfold topCount
        congr 1
        apply Finset.filter_congr
        intro n hn
        by_cases hne : n = nbr
        · rw [hne, hgupd, Function.update_same, hgtop]
          exact iff_of_false htne WithTop.coe_ne_top
        · rw [hgupd, Function.update_noteq hne]
      · unfold rankSum
        refine Finset.sum_lt_sum ?_ ⟨nbr, by simpa using hnbrN, ?_⟩
        · intro n hn
          by_cases hne : n = nbr
          · subst hne
            rw [hgupd, Function.update_same, htent, hgtop]
            exact le_of_lt (rankBelow_lt_of_lt (scoreSet_add_weight hrS hwE) hlt')
          · rw [hgupd, Function.update_noteq hne]
        · rw [hgupd, Function.update_same, htent, hgtop]
          exact rankBelow_lt_of_lt (scoreSet_add_weight hrS hwE) hlt'

lemma relaxList_measure {rm : Roadmap N} {goal_node cur : N} :
    ∀ (ns : List N) (st : AState N), AInv rm st → cur ∈ rm.nodes →
      (∀ n ∈ ns, n ∈ rm.adj cur) →
      (ns.foldl (relaxStep rm goal_node cur) st = st ∨
        MDec rm (ns.foldl (relaxStep rm goal_node cur) st) st) := by
  intro ns
  induction ns with
  | nil => intro st _ _ _; exact Or.inl rfl
  | cons x xs ih =>
    intro st hinv hcur hmem
    have hx := hmem x (List.mem_cons_self x xs)
    have hinv1 : AInv rm (relaxStep rm goal_node cur st x) :=
      relaxStep_AInv hinv hcur hx
    have hrest := ih (relaxStep rm goal_node cur st x) hinv1 hcur
      (fun n hn => hmem n (List.mem_cons_of_mem x hn))
    rw [List.foldl_cons]
    rcases relaxStep_measure hinv hcur hx with heq | hdec
    · rw [heq] at hrest ⊢
      exact hrest
    · rcases hrest with heq2 | hdec2
      · rw [heq2]
        exact Or.inr hdec
      · exact Or.inr (MDec_trans hdec2 hdec)

/-- The path-reconstruction loop (lines 52-56 of `core/astar.py`): follow
`came_from` back from the popped goal, collecting coordinates (the result is
reversed by the caller, as in the source). The Python loop runs until `None`;
here the walk is bounded by a fuel argument, and the search invariants show
`rm.nodes.length` steps always suffice. -/
def reconstructPath (coord : N → Coord) (cameFrom : N → Option N) :
    ℕ → N → List Coord
  | 0, n => [coord n]
  | fuel + 1, n =>
    coord n ::
      (match cameFrom n with
      | none => []
      | some c => reconstructPath coord cameFrom fuel c)

lemma lex3_of {a1 a2 a3 b1 b2 b3 : ℕ}
    (h : a1 < b1 ∨ (a1 = b1 ∧ (a2 < b2 ∨ (a2 = b2 ∧ a3 < b3)))) :
    Prod.Lex (· < ·) (Prod.Lex (· < ·) (· < ·)) (a1, (a2, a3)) (b1, (b2, b3)) := by
  rcases h with h | ⟨rfl, h | ⟨rfl, h⟩⟩
  · exact Prod.Lex.left _ _ h
  · exact Prod.Lex.right _ (Prod.Lex.left _ _ h)
  · exact Prod.Lex.right _ (Prod.Lex.right _ h)

lemma astar_measure_lt3 {rm : Roadmap N} {goal_node : N} {st : AState N}
    {m : WithTop ℝ × N} (hinv : AInv rm st) (hm : m ∈ st.openList) :
    topCount rm (relaxAll rm goal_node m.2
        { st with openList := st.openList.erase m }) < topCount rm st ∨
      (topCount rm (relaxAll rm goal_node m.2
          { st with openList := st.openList.erase m }) = topCount rm st ∧
        (rankSum rm (relaxAll rm goal_node m.2
            { st with openList := st.openList.erase m }) < rankSum rm st ∨
          (rankSum rm (relaxAll rm goal_node m.2
              { st with openList := st.openList.erase m }) = rankSum rm st ∧
            (relaxAll rm goal_node m.2
              { st with openList := st.openList.erase m }).openList.length <
              st.openList.length))) := by
  have hcur : m.2 ∈ rm.nodes := hinv.2 m hm
  have hinv1 : AInv rm { st with openList := st.openList.erase m } :=
    ⟨hinv.1, fun e he => hinv.2 e (List.mem_of_mem_erase he)⟩
  have htop1 : topCount rm { st with openList := st.openList.erase m } =
      topCount rm st := rfl
  have hrank1 : rankSum rm { st with openList := st.openList.erase m } =
      rankSum rm st := rfl
  have hfold := @relaxList_measure N _ rm goal_node m.2 (rm.adj m.2)
    { st with openList := st.openList.erase m } hinv1 hcur (fun _ h => h)
  have hAll : relaxAll rm goal_node m.2 { st with openList := st.openList.erase m } =
      (rm.adj m.2).foldl (relaxStep rm goal_node m.2)
        { st with openList := st.openList.erase m } := rfl
  rcases hfold with heq | hdec
  · right
    rw [hAll, heq]
    refine ⟨htop1, Or.inr ⟨hrank1, ?_⟩⟩
    show (st.openList.erase m).length < st.openList.length
    rw [List.length_erase_of_mem hm]
    have : st.openList.length ≠ 0 := by
      intro h0
      rw [List.length_eq_zero] at h0
      rw [h0] at hm
      exact absurd hm (List.not_mem_nil m)
    omega
  · rw [hAll]
    rcases hdec with h | ⟨he, hr⟩
    · exact Or.inl (htop1 ▸ h)
    · exact Or.inr ⟨he.trans htop1, Or.inl (hrank1 ▸ hr)⟩

lemma astar_measure_decrease {rm : Roadmap N} {goal_node : N} {st : AState N}
    {m : WithTop ℝ × N} (hinv : AInv rm st) (hm : m ∈ st.openList) :
    Prod.Lex (· < ·) (Prod.Lex (· < ·) (· < ·))
      (topCount rm (relaxAll rm goal_node m.2
          { st with openList := st.openList.erase m }),
        (rankSum rm (relaxAll rm goal_node m.2
          { st with openList := st.openList.erase m }),
        (relaxAll rm goal_node m.2
          { st with openList := st.openList.erase m }).openList.length))
      (topCount rm st, (rankSum rm st, st.openList.length)) :=
  lex3_of (astar_measure_lt3 hinv hm)

/-- The `while open_list` loop of `core/astar.py` (lines 48-66): pop the least
heap entry; if it is the goal node, reconstruct; otherwise relax all its
neighbors and continue. Total by well-founded recursion on (number of
infinite scores, total rank of finite scores, heap size). -/
def astarLoop (rm : Roadmap N) (goal_node : N) (st : AState N)
    (hinv : AInv rm st) : List Coord :=
  match hpop : heapMin st.openList with
  | none => []
  | some m =>
    if m.2 = goal_node then
      (reconstructPath rm.coord st.cameFrom rm.nodes.length m.2).reverse
    else
      astarLoop rm goal_node
        (relaxAll rm goal_node m.2 { st with openList := st.openList.erase m })
        (relaxAll_AInv
          ⟨hinv.1, fun e he => hinv.2 e (List.mem_of_mem_erase he)⟩
          (hinv.2 m ((heapMin_spec hpop).1)))
termination_by (topCount rm st, rankSum rm st, st.openList.length)
decreasing_by
  exact astar_measure_decrease hinv ((heapMin_spec hpop).1)

/-- The same loop with an explicit fuel bound on the number of iterations, to
state termination: `none` means the loop did not finish within `fuel`
iterations. -/
def astarLoopFuel (rm : Roadmap N) (goal_node : N) :
    ℕ → AState N → Option (List Coord)
  | 0, _ => none
  | fuel + 1, st =>
    match heapMin st.openList with
    | none => some []
    | some m =>
      if m.2 = goal_node then
        some (reconstructPath rm.coord st.cameFrom rm.nodes.length m.2).reverse
      else
        astarLoopFuel rm goal_node fuel
          (relaxAll rm goal_node m.2 { st with openList := st.openList.erase m })

lemma astarLoop_eq_empty {rm : Roadmap N} {goal_node : N} {st : AState N}
    (hinv : AInv rm st) (h : heapMin st.openList = none) :
    astarLoop rm goal_node st hinv = [] := by
  rw [astarLoop]
  split
  · rfl
  · rename_i m hm
    rw [h] at hm
    exact absurd hm (by simp)

lemma astarLoop_eq_goal {rm : Roadmap N} {goal_node : N} {st : AState N}
    (hinv : AInv rm st) {m : WithTop ℝ × N} (h : heapMin st.openList = some m)
    (hg : m.2 = goal_node) :
    astarLoop rm goal_node st hinv =
      (reconstructPath rm.coord st.cameFrom rm.nodes.length m.2).reverse := by
  rw [astarLoop]
  split
  · rename_i hm
    rw [h] at hm
    exact absurd hm (by simp)
  · rename_i m' hm
    rw [h] at hm
    have hmm : m' = m := by
      injection hm.symm  -- hmm direction
    subst hmm
    rw [if_pos hg]

lemma astarLoop_eq_step {rm : Roadmap N} {goal_node : N} {st : AState N}
    (hinv : AInv rm st) {m : WithTop ℝ × N} (h : heapMin st.openList = some m)
    (hg : m.2 ≠ goal_node)
    (hinv' : AInv rm (relaxAll rm goal_node m.2
      { st with openList := st.openList.erase m })) :
    astarLoop rm goal_node st hinv =
      astarLoop rm goal_node
        (relaxAll rm goal_node m.2 { st with openList := st.openList.erase m })
        hinv' := by
  rw [astarLoop]
  split
  · rename_i hm
    rw [h] at hm
    exact absurd hm (by simp)
  · rename_i m' hm
    rw [h] at hm
    have hmm : m' = m := by
      injection hm.symm
    subst hmm
    rw [if_neg hg]


lemma lex3_strong_induction (P : ℕ → ℕ → ℕ → Prop)
    (ind : ∀ a b c,
      (∀ a' b' c', (a' < a ∨ (a' = a ∧ (b' < b ∨ (b' = b ∧ c' < c)))) → P a' b' c') →
      P a b c) :
    ∀ a b c, P a b c := by
  intro a
  induction a using Nat.strong_induction_on with
  | _ a iha =>
    intro b
    induction b using Nat.strong_induction_on with
    | _ b ihb =>
      intro c
      induction c using Nat.strong_induction_on with
      | _ c ihc =>
        apply ind
        rintro a' b' c' (h | ⟨rfl, h | ⟨rfl, h⟩⟩)
        · exact iha a' h b' c'
        · exact ihb b' h c'
        · exact ihc c' h

lemma astarLoopFuel_adequate {rm : Roadmap N} {goal_node : N} :
    ∀ (st : AState N) (hinv : AInv rm st),
      ∃ n, astarLoopFuel rm goal_node n st =
        some (astarLoop rm goal_node st hinv) := by
  suffices h : ∀ a b c (st : AState N) (hinv : AInv rm st),
      topCount rm st = a → rankSum rm st = b → st.openList.length = c →
      ∃ n, astarLoopFuel rm goal_node n st =
        some (astarLoop rm goal_node st hinv) by
    intro st hinv
    exact h _ _ _ st hinv rfl rfl rfl
  refine lex3_strong_induction _ ?_
  intro a b c IH st hinv ha hb hc
  subst ha
  subst hb
  subst hc
  cases hpop : heapMin st.openList with
  | none =>
    refine ⟨1, ?_⟩
    rw [astarLoop_eq_empty hinv hpop]
    unfold astarLoopFuel
    rw [hpop]
  | some m =>
    by_cases hg : m.2 = goal_node
    · refine ⟨1, ?_⟩
      rw [astarLoop_eq_goal hinv hpop hg]
      unfold astarLoopFuel
      rw [hpop]
      simp only [if_pos hg]
    · have hm := (heapMin_spec hpop).1
      have hinv' : AInv rm (relaxAll rm goal_node m.2
          { st with openList := st.openList.erase m }) :=
        relaxAll_AInv
          ⟨hinv.1, fun e he => hinv.2 e (List.mem_of_mem_erase he)⟩
          (hinv.2 m hm)
      have hdec := @astar_measure_lt3 N _ rm goal_node st m hinv hm
      obtain ⟨n, hn⟩ := IH _ _ _ hdec
        (relaxAll rm goal_node m.2 { st with openList := st.openList.erase m })
        hinv' rfl rfl rfl
      refine ⟨n + 1, ?_⟩
      rw [astarLoop_eq_step hinv hpop hg hinv']
      unfold astarLoopFuel
      rw [hpop]
      simp only [if_neg hg]
      exact hn

/-- Lines 41-46 of `core/astar.py`: the initial search state (`open_list`
holds `(0, start_node)`; all `came_from` entries `None`; scores infinite except
the start's; the start's `f_score` uses the raw `start_coord`, as the source
does). -/
def initState (rm : Roadmap N) (start_coord : Coord) (start_node goal_node : N) :
    AState N :=
  { openList := [((0 : WithTop ℝ), start_node)]
    cameFrom := fun _ => none
    gScore := Function.update (fun _ => (⊤ : WithTop ℝ)) start_node 0
    fScore := Function.update (fun _ => (⊤ : WithTop ℝ)) start_node
      ((heuristic start_coord (rm.coord goal_node) : ℝ) : WithTop ℝ) }

lemma pymin_eq_none_iff {M : Type} (key : M → ℝ) (l : List M) :
    pymin key l = none ↔ l = [] := by
  cases l with
  | nil => simp [pymin]
  | cons x xs => simp [pymin]

lemma nearestNode_mem {rm : Roadmap N} {q : Coord} {m : N}
    (h : nearestNode rm q = some m) : m ∈ rm.nodes := by
  have hne : rm.nodes ≠ [] := by
    intro h0
    have : nearestNode rm q = none := by
      unfold nearestNode
      rw [pymin_eq_none_iff]
      exact h0
    rw [this] at h
    exact absurd h (by simp)
  obtain ⟨m', hm', hmem, -, -, -⟩ := nearestNode_min rm q hne
  have : m = m' := Option.some_inj.mp (h.symm.trans hm')
  rw [this]
  exact hmem

lemma initState_AInv (rm : Roadmap N) (start_coord : Coord)
    {start_node : N} (goal_node : N) (hs : start_node ∈ rm.nodes) :
    AInv rm (initState rm start_coord start_node goal_node) := by
  constructor
  · intro n
    by_cases hn : n = start_node
    · right
      refine ⟨0, ?_, scoreSet_zero rm⟩
      show Function.update (fun _ => (⊤ : WithTop ℝ)) start_node 0 n = _
      rw [hn, Function.update_same, WithTop.coe_zero]
    · left
      show Function.update (fun _ => (⊤ : WithTop ℝ)) start_node 0 n = ⊤
      rw [Function.update_noteq hn]
  · intro e he
    have he' : e ∈ [((0 : WithTop ℝ), start_node)] := he
    have : e = ((0 : WithTop ℝ), start_node) := by simpa using he'
    rw [this]
    exact hs

/-- Embedding of `core/astar.py::astar`. The module-level `coordinates` and
`graph` are the Roadmap; `min` over an empty dict raises `ValueError` in
Python, modelled by `none`. -/
def astar (rm : Roadmap N) (start_coord goal_coord : Coord) :
    Option (List Coord) :=
  match h1 : nearestNode rm start_coord, h2 : nearestNode rm goal_coord with
  | some start_node, some goal_node =>
    some (astarLoop rm goal_node (initState rm start_coord start_node goal_node)
      (initState_AInv rm start_coord goal_node (nearestNode_mem h1)))
  | none, _ => none
  | some _, none => none

/-- C10: the `astar` search always terminates. The loop keeps no closed set and
may push a node repeatedly, but pushes require a strict `g_score` improvement
and only finitely many candidate score values lie below any bound, so either
the result is the error case (empty Roadmap) or the fueled loop reaches
`astar`'s result within some finite number of iterations. -/
theorem astar_terminates (rm : Roadmap N) (start_coord goal_coord : Coord) :
    (rm.nodes = [] ∧ astar rm start_coord goal_coord = none) ∨
    ∃ start_node goal_node n route,
      nearestNode rm start_coord = some start_node ∧
      nearestNode rm goal_coord = some goal_node ∧
      astar rm start_coord goal_coord = some route ∧
      astarLoopFuel rm goal_node n
        (initState rm start_coord start_node goal_node) = some route := by
  cases hl : rm.nodes with
  | nil =>
    left
    refine ⟨rfl, ?_⟩
    have h1 : nearestNode rm start_coord = none := by
      unfold nearestNode
      rw [pymin_eq_none_iff]
      exact hl
    unfold astar
    split
    · rename_i start_node goal_node heq1 heq2
      rw [h1] at heq1
      exact absurd heq1 (by simp)
    · rfl
    · rfl
  | cons x xs =>
    right
    have hne : rm.nodes ≠ [] := by
      rw [hl]
      exact List.cons_ne_nil x xs
    obtain ⟨sn, hsn, -, -, -, -⟩ := nearestNode_min rm start_coord hne
    obtain ⟨gn, hgn, -, -, -, -⟩ := nearestNode_min rm goal_coord hne
    obtain ⟨n, hn⟩ := astarLoopFuel_adequate
      (initState rm start_coord sn gn)
      (initState_AInv rm start_coord gn (nearestNode_mem hsn))
    refine ⟨sn, gn, n, _, hsn, hgn, ?_, hn⟩
    unfold astar
    split
    · rename_i start_node goal_node heq1 heq2
      rw [hsn] at heq1
      rw [hgn] at heq2
      have hseq : start_node = sn := by
        injection heq1.symm
      have hgeq : goal_node = gn := by
        injection heq2.symm
      subst hseq
      subst hgeq
      rfl
    · exact absurd (hsn.symm.trans ‹nearestNode rm start_coord = none›) (by simp)
    · exact absurd (hgn.symm.trans ‹nearestNode rm goal_coord = none›) (by simp)

lemma heuristic_eq_complex_abs (p q : Coord) :
    heuristic p q = Complex.abs ⟨p.1 - q.1, p.2 - q.2⟩ := by
  unfold heuristic
  rw [Complex.abs_apply, Complex.normSq_mk]
  ring_nf

lemma heuristic_triangle (a b c : Coord) :
    heuristic a c ≤ heuristic a b + heuristic b c := by
  rw [heuristic_eq_complex_abs, heuristic_eq_complex_abs, heuristic_eq_complex_abs]
  have h1 : (⟨a.1 - c.1, a.2 - c.2⟩ : ℂ) =
      (⟨a.1 - b.1, a.2 - b.2⟩ : ℂ) + ⟨b.1 - c.1, b.2 - c.2⟩ := by
    apply Complex.ext
    · simp only [Complex.add_re]
      ring_nf
    · simp only [Complex.add_im]
      ring_nf
  rw [h1]
  exact Complex.abs.add_le _ _

/-- Total Euclidean length along a node path of the Roadmap. -/
def pathCost (rm : Roadmap N) : List N → ℝ
  | [] => 0
  | [_] => 0
  | u :: v :: rest => heuristic (rm.coord u) (rm.coord v) + pathCost rm (v :: rest)

/-- Total Euclidean length of a Route, summing consecutive coordinate
distances. -/
def routeLen : List Coord → ℝ
  | [] => 0
  | [_] => 0
  | a :: b :: rest => heuristic a b + routeLen (b :: rest)

lemma routeLen_map_coord (rm : Roadmap N) :
    ∀ p : List N, routeLen (p.map rm.coord) = pathCost rm p := by
  intro p
  induction p with
  | nil => rfl
  | cons x xs ih =>
    cases xs with
    | nil => rfl
    | cons y ys =>
      show heuristic (rm.coord x) (rm.coord y) + routeLen ((y :: ys).map rm.coord) = _
      rw [ih]
      rfl

/-- A directed Roadmap path from `a` to `b`: nonempty, starts at `a`, ends at
`b`, and each consecutive pair is a directed Roadmap edge. -/
def IsPathFrom (rm : Roadmap N) (a b : N) (p : List N) : Prop :=
  p.head? = some a ∧ p.getLast? = some b ∧
    List.Chain' (fun u v => v ∈ rm.adj u) p

lemma heuristic_le_pathCost (rm : Roadmap N) :
    ∀ (p : List N) (a z : N), p.head? = some a → p.getLast? = some z →
      heuristic (rm.coord a) (rm.coord z) ≤ pathCost rm p := by
  intro p
  induction p with
  | nil =>
    intro a z ha _
    exact absurd ha (by simp)
  | cons x xs ih =>
    intro a z ha hz
    have hax : x = a := by simpa using ha
    subst hax
    cases xs with
    | nil =>
      have hzx : x = z := by simpa using hz
      subst hzx
      rw [heuristic_self]
      exact le_refl (0:ℝ)
    | cons y ys =>
      have hz' : (y :: ys).getLast? = some z :=
        (List.getLast?_cons_cons).symm.trans hz
      have hy : (y :: ys).head? = some y := rfl
      have ih' := ih y z hy hz'
      show heuristic (rm.coord x) (rm.coord z) ≤
        heuristic (rm.coord x) (rm.coord y) + pathCost rm (y :: ys)
      calc heuristic (rm.coord x) (rm.coord z) ≤
          heuristic (rm.coord x) (rm.coord y) + heuristic (rm.coord y) (rm.coord z) :=
            heuristic_triangle _ _ _
        _ ≤ heuristic (rm.coord x) (rm.coord y) + pathCost rm (y :: ys) := by
            linarith

lemma pathCost_append_last (rm : Roadmap N) :
    ∀ (q : List N) (z w : N), q.getLast? = some z →
      pathCost rm (q ++ [w]) = pathCost rm q + wt rm z w := by
  intro q
  induction q with
  | nil =>
    intro z w hz
    exact absurd hz (by simp)
  | cons x xs ih =>
    intro z w hz
    cases xs with
    | nil =>
      have hzx : x = z := by simpa using hz
      subst hzx
      show heuristic (rm.coord x) (rm.coord w) + pathCost rm [w] =
        pathCost rm [x] + wt rm x w
      show heuristic (rm.coord x) (rm.coord w) + 0 = 0 + wt rm x w
      rw [add_zero, zero_add]
      rfl
    | cons y ys =>
      have hz' : (y :: ys).getLast? = some z :=
        (List.getLast?_cons_cons).symm.trans hz
      show heuristic (rm.coord x) (rm.coord y) + pathCost rm ((y :: ys) ++ [w]) = _
      rw [ih z w hz']
      show _ = heuristic (rm.coord x) (rm.coord y) + pathCost rm (y :: ys) + wt rm z w
      ring

/-- The `came_from` parent chain from a node down to a root node. -/
inductive IsCFChain (cf : N → Option N) : N → List N → Prop
  | root {n : N} : cf n = none → IsCFChain cf n [n]
  | step {n c : N} {l : List N} : cf n = some c → IsCFChain cf c l →
      IsCFChain cf n (n :: l)

lemma IsCFChain.ne_nil {cf : N → Option N} {n : N} {l : List N}
    (h : IsCFChain cf n l) : l ≠ [] := by
  cases h with
  | root _ => exact List.cons_ne_nil n []
  | step _ _ => exact List.cons_ne_nil _ _

lemma IsCFChain.head_eq {cf : N → Option N} {n : N} {l : List N}
    (h : IsCFChain cf n l) : l.head? = some n := by
  cases h with
  | root _ => rfl
  | step _ _ => rfl

lemma IsCFChain.exists_chain {cf : N → Option N}
    (hacc : ∀ n, Acc (fun c n => cf n = some c) n) (n : N) :
    ∃ l, IsCFChain cf n l := by
  have h := hacc n
  induction h with
  | intro n hpred ih =>
    cases hcf : cf n with
    | none => exact ⟨[n], IsCFChain.root hcf⟩
    | some c =>
      obtain ⟨l, hl⟩ := ih c hcf
      exact ⟨n :: l, IsCFChain.step hcf hl⟩

lemma IsCFChain.mem_rt {cf : N → Option N} {n : N} {l : List N}
    (h : IsCFChain cf n l) :
    ∀ v ∈ l, Relation.ReflTransGen (fun c n => cf n = some c) v n := by
  induction h with
  | root _ =>
    rename_i m _
    intro v hv
    rw [List.mem_singleton] at hv
    subst hv
    exact Relation.ReflTransGen.refl
  | step hcf hchain ih =>
    rename_i m c l'
    intro v hv
    rcases List.mem_cons.mp hv with rfl | hv'
    · exact Relation.ReflTransGen.refl
    · exact Relation.ReflTransGen.tail (ih v hv') hcf

lemma acc_transGen_irrefl {r : N → N → Prop} {v : N}
    (h : Acc (Relation.TransGen r) v) : ¬ Relation.TransGen r v v := by
  induction h with
  | intro v hpred ih =>
    intro hvv
    exact ih v hvv hvv

lemma IsCFChain.nodup {cf : N → Option N} {n : N} {l : List N}
    (h : IsCFChain cf n l)
    (hacc : ∀ m, Acc (fun c n => cf n = some c) m) : l.Nodup := by
  induction h with
  | root _ => exact List.nodup_singleton _
  | step hcf hchain ih =>
    rename_i m c l'
    refine List.Nodup.cons ?_ ih
    intro hmem
    have hrt : Relation.ReflTransGen (fun c n => cf n = some c) m c :=
      hchain.mem_rt m hmem
    have htrans : Relation.TransGen (fun c n => cf n = some c) m m :=
      Relation.TransGen.tail' hrt hcf
    exact acc_transGen_irrefl ((hacc m).transGen) htrans

lemma IsCFChain.mem_nodes {rm : Roadmap N} {cf : N → Option N} {n : N}
    {l : List N} (h : IsCFChain cf n l) (hn : n ∈ rm.nodes)
    (hcf : ∀ a b, cf a = some b → b ∈ rm.nodes) :
    ∀ v ∈ l, v ∈ rm.nodes := by
  induction h with
  | root _ =>
    intro v hv
    rw [List.mem_singleton] at hv
    subst hv
    exact hn
  | step hstep hchain ih =>
    rename_i m c l'
    intro v hv
    rcases List.mem_cons.mp hv with rfl | hv'
    · exact hn
    · exact ih (hcf m c hstep) v hv'

lemma nodup_subset_length_le {l nodes : List N} (hnd : l.Nodup)
    (hsub : ∀ v ∈ l, v ∈ nodes) : l.length ≤ nodes.length := by
  calc l.length = l.toFinset.card := (List.toFinset_card_of_nodup hnd).symm
    _ ≤ nodes.toFinset.card := by
        refine Finset.card_le_card ?_
        intro v hv
        rw [List.mem_toFinset] at hv ⊢
        exact hsub v hv
    _ ≤ nodes.length := List.toFinset_card_le nodes

lemma reconstructPath_eq_chain (coord : N → Coord) {cf : N → Option N} :
    ∀ {l : List N} {n : N}, IsCFChain cf n l → ∀ fuel, l.length ≤ fuel + 1 →
      reconstructPath coord cf fuel n = l.map coord := by
  intro l n h
  induction h with
  | root hcf =>
    intro fuel _
    cases fuel with
    | zero => rfl
    | succ f =>
      show coord _ :: _ = _
      rw [show (match cf _ with
        | none => ([] : List Coord)
        | some c => reconstructPath coord cf f c) = [] from by rw [hcf]]
      rfl
  | step hcf hchain ih =>
    rename_i m c l'
    intro fuel hlen
    have hl' : l' ≠ [] := hchain.ne_nil
    have hlen' : 1 ≤ l'.length := by
      cases l' with
      | nil => exact absurd rfl hl'
      | cons _ _ => simp
    cases fuel with
    | zero =>
      exfalso
      have : (m :: l').length = l'.length + 1 := by simp
      omega
    | succ f =>
      show coord m :: _ = coord m :: l'.map coord
      rw [show (match cf m with
        | none => ([] : List Coord)
        | some c' => reconstructPath coord cf f c') =
          reconstructPath coord cf f c from by rw [hcf]]
      rw [ih f (by simp at hlen; omega)]

/-- The global invariant of the search loop at the top of each iteration,
relative to the snapped start and goal nodes: scores are sums of edge weights,
heap entries are finite-score Roadmap nodes, the start has score 0 and no
parent and is the only finite root, parent links are Roadmap edges whose
scores telescope, the parent relation is well-founded, every finite-score node
either has a usable heap entry (with key at most `g + h`) or has all its
neighbors relaxed, every heap entry of the goal bounds `g(goal)` from above,
and a finite `g(goal)` guarantees a pending goal entry. -/
structure GInv (rm : Roadmap N) (start_node goal_node : N) (st : AState N) :
    Prop where
  ainv : AInv rm st
  heapFin : ∀ e ∈ st.openList, st.gScore e.2 ≠ ⊤
  gstart : st.gScore start_node = 0
  cfstart : st.cameFrom start_node = none
  rootStart : ∀ n, st.gScore n ≠ ⊤ → st.cameFrom n = none → n = start_node
  parent : ∀ n c, st.cameFrom n = some c →
    st.gScore c + ((wt rm c n : ℝ) : WithTop ℝ) ≤ st.gScore n ∧
    c ∈ rm.nodes ∧ n ∈ rm.adj c ∧ n ∈ rm.nodes ∧
    st.gScore c ≠ ⊤ ∧ st.gScore n ≠ ⊤
  acc : ∀ n, Acc (fun c n => st.cameFrom n = some c) n
  expand : ∀ n, st.gScore n ≠ ⊤ →
    (∃ e ∈ st.openList, e.2 = n ∧
      e.1 ≤ st.gScore n + ((wt rm n goal_node : ℝ) : WithTop ℝ)) ∨
    (∀ m ∈ rm.adj n, st.gScore m ≤ st.gScore n + ((wt rm n m : ℝ) : WithTop ℝ))
  goalUB : ∀ e ∈ st.openList, e.2 = goal_node → st.gScore goal_node ≤ e.1
  goalPending : st.gScore goal_node ≠ ⊤ → ∃ e ∈ st.openList, e.2 = goal_node

/-- The invariant at intermediate points of the neighbor-relaxation fold of
one iteration: as `GInv`, with the expansion disjunction only for nodes other
than the popped node `cur`, plus the relaxation of `cur`'s already-processed
neighbors. -/
structure GInvMid (rm : Roadmap N) (start_node goal_node cur : N)
    (done : List N) (st : AState N) : Prop where
  ainv : AInv rm st
  heapFin : ∀ e ∈ st.openList, st.gScore e.2 ≠ ⊤
  gstart : st.gScore start_node = 0
  cfstart : st.cameFrom start_node = none
  rootStart : ∀ n, st.gScore n ≠ ⊤ → st.cameFrom n = none → n = start_node
  parent : ∀ n c, st.cameFrom n = some c →
    st.gScore c + ((wt rm c n : ℝ) : WithTop ℝ) ≤ st.gScore n ∧
    c ∈ rm.nodes ∧ n ∈ rm.adj c ∧ n ∈ rm.nodes ∧
    st.gScore c ≠ ⊤ ∧ st.gScore n ≠ ⊤
  acc : ∀ n, Acc (fun c n => st.cameFrom n = some c) n
  expandNC : ∀ n, n ≠ cur → st.gScore n ≠ ⊤ →
    (∃ e ∈ st.openList, e.2 = n ∧
      e.1 ≤ st.gScore n + ((wt rm n goal_node : ℝ) : WithTop ℝ)) ∨
    (∀ m ∈ rm.adj n, st.gScore m ≤ st.gScore n + ((wt rm n m : ℝ) : WithTop ℝ))
  expandCur : ∀ m ∈ done,
    st.gScore m ≤ st.gScore cur + ((wt rm cur m : ℝ) : WithTop ℝ)
  goalUB : ∀ e ∈ st.openList, e.2 = goal_node → st.gScore goal_node ≤ e.1
  goalPending : st.gScore goal_node ≠ ⊤ → ∃ e ∈ st.openList, e.2 = goal_node

lemma rt_g_le {rm : Roadmap N} {st : AState N}
    (hpar : ∀ n c, st.cameFrom n = some c →
      st.gScore c + ((wt rm c n : ℝ) : WithTop ℝ) ≤ st.gScore n)
    {a b : N}
    (h : Relation.ReflTransGen (fun c n => st.cameFrom n = some c) a b) :
    st.gScore a ≤ st.gScore b := by
  induction h with
  | refl => exact le_refl _
  | tail hab hbc ih =>
    rename_i x y
    refine le_trans ih ?_
    refine le_trans (le_add_wt (st.gScore x) (wt_nonneg rm x y)) ?_
    exact hpar y x hbc

lemma acc_update {cf : N → Option N} {nbr cur : N}
    (hacc : ∀ n, Acc (fun c n => cf n = some c) n)
    (hnoanc : ¬ Relation.ReflTransGen (fun c n => cf n = some c) nbr cur) :
    ∀ n, Acc (fun c n => Function.update cf nbr (some cur) n = some c) n := by
  have stage1 : ∀ n, Acc (fun c n => cf n = some c) n →
      ¬ Relation.ReflTransGen (fun c n => cf n = some c) nbr n →
      Acc (fun c n => Function.update cf nbr (some cur) n = some c) n := by
    intro n h
    induction h with
    | intro n hpred ih =>
      intro hnot
      constructor
      intro c hc
      have hne : n ≠ nbr := by
        rintro rfl
        exact hnot Relation.ReflTransGen.refl
      rw [Function.update_noteq hne] at hc
      exact ih c hc (fun hrt => hnot (Relation.ReflTransGen.tail hrt hc))
  have hcur : Acc (fun c n => Function.update cf nbr (some cur) n = some c) cur :=
    stage1 cur (hacc cur) hnoanc
  have hnbr : Acc (fun c n => Function.update cf nbr (some cur) n = some c) nbr := by
    constructor
    intro c hc
    rw [Function.update_same] at hc
    have hcc : cur = c := by
      injection hc
    rw [← hcc]
    exact hcur
  intro n
  have h := hacc n
  induction h with
  | intro n hpred ih =>
    by_cases hne : n = nbr
    · rw [hne]
      exact hnbr
    · constructor
      intro c hc
      rw [Function.update_noteq hne] at hc
      exact ih c hc

lemma GInvMid_step {rm : Roadmap N} {start_node goal_node cur : N}
    {done : List N} {st : AState N} {nbr : N}
    (H : GInvMid rm start_node goal_node cur done st)
    (hcur : cur ∈ rm.nodes) (hnbr : nbr ∈ rm.adj cur) :
    GInvMid rm start_node goal_node cur (done ++ [nbr])
      (relaxStep rm goal_node cur st nbr) := by
  rcases relaxStep_cases rm goal_node cur st nbr with ⟨hnlt, heq⟩ | ⟨hlt, heq⟩
  · rw [heq]
    exact { H with
      expandCur := by
        intro m hm
        rcases List.mem_append.mp hm with hm | hm
        · exact H.expandCur m hm
        · have hmn : m = nbr := by simpa using hm
          rw [hmn]
          exact not_lt.mp hnlt }
  · set tnt := st.gScore cur + ((wt rm cur nbr : ℝ) : WithTop ℝ) with htnt
    have htne : tnt ≠ ⊤ := ne_top_of_lt hlt
    have hgcur : st.gScore cur ≠ ⊤ := by
      intro hc
      rw [htnt, hc, top_add] at htne
      exact htne rfl
    have hnbrN : nbr ∈ rm.nodes := rm.adj_mem cur hcur nbr hnbr
    have hnc : nbr ≠ cur := by
      rintro rfl
      rw [htnt, wt_self, WithTop.coe_zero, add_zero] at hlt
      exact lt_irrefl _ hlt
    have htnn : (0 : WithTop ℝ) ≤ tnt := by
      rw [htnt]
      refine add_nonneg (AInv_g_nonneg H.ainv cur) ?_
      rw [← WithTop.coe_zero]
      exact WithTop.coe_le_coe.mpr (wt_nonneg rm cur nbr)
    have hnstart : nbr ≠ start_node := by
      rintro rfl
      rw [H.gstart] at hlt
      exact absurd hlt (not_lt.mpr htnn)
    have hnoanc : ¬ Relation.ReflTransGen
        (fun c n => st.cameFrom n = some c) nbr cur := by
      intro hrt
      have h1 : st.gScore nbr ≤ st.gScore cur :=
        rt_g_le (fun n c h => (H.parent n c h).1) hrt
      have h2 : st.gScore cur ≤ tnt := le_add_wt _ (wt_nonneg rm cur nbr)
      exact absurd hlt (not_lt.mpr (le_trans h1 h2))
    have hg : (relaxStep rm goal_node cur st nbr).gScore =
        Function.update st.gScore nbr tnt := by
      rw [heq]
    have hcf : (relaxStep rm goal_node cur st nbr).cameFrom =
        Function.update st.cameFrom nbr (some cur) := by
      rw [heq]
    have hol : (relaxStep rm goal_node cur st nbr).openList =
        st.openList ++ [(tnt + ((wt rm nbr goal_node : ℝ) : WithTop ℝ), nbr)] := by
      rw [heq]
    have hg_le : ∀ n, Function.update st.gScore nbr tnt n ≤ st.gScore n := by
      intro n
      by_cases hn : n = nbr
      · rw [hn, Function.update_same]
        exact le_of_lt hlt
      · rw [Function.update_noteq hn]
    have hg_ne : ∀ n, st.gScore n ≠ ⊤ → Function.update st.gScore nbr tnt n ≠ ⊤ := by
      intro n hne
      by_cases hn : n = nbr
      · rw [hn, Function.update_same]
        exact htne
      · rw [Function.update_noteq hn]
        exact hne
    refine
      { ainv := ?_
        heapFin := ?_
        gstart := ?_
        cfstart := ?_
        rootStart := ?_
        parent := ?_
        acc := ?_
        expandNC := ?_
        expandCur := ?_
        goalUB := ?_
        goalPending := ?_ }
    · exact relaxStep_AInv H.ainv hcur hnbr
    · intro e he
      rw [hol] at he
      rw [hg]
      rcases List.mem_append.mp he with he | he
      · exact hg_ne e.2 (H.heapFin e he)
      · have : e = (tnt + ((wt rm nbr goal_node : ℝ) : WithTop ℝ), nbr) := by
          simpa using he
        rw [this]
        show Function.update st.gScore nbr tnt nbr ≠ ⊤
        rw [Function.update_same]
        exact htne
    · rw [hg, Function.update_noteq (Ne.symm hnstart)]
      exact H.gstart
    · rw [hcf, Function.update_noteq (Ne.symm hnstart)]
      exact H.cfstart
    · intro n h1 h2
      rw [hcf] at h2
      by_cases hn : n = nbr
      · rw [hn, Function.update_same] at h2
        exact absurd h2 (by simp)
      · rw [Function.update_noteq hn] at h2
        rw [hg, Function.update_noteq hn] at h1
        exact H.rootStart n h1 h2
    · intro n c hc
      rw [hcf] at hc
      rw [hg]
      by_cases hn : n = nbr
      · subst hn
        rw [Function.update_same] at hc
        have hcc : cur = c := by injection hc
        subst hcc
        refine ⟨?_, hcur, hnbr, hnbrN, ?_, ?_⟩
        · rw [Function.update_noteq (Ne.symm hnc), Function.update_same]
        · rw [Function.update_noteq (Ne.symm hnc)]
          exact hgcur
        · rw [Function.update_same]
          exact htne
      · rw [Function.update_noteq hn] at hc
        obtain ⟨hP1, hP2, hP3, hP4, hP5, hP6⟩ := H.parent n c hc
        refine ⟨?_, hP2, hP3, hP4, hg_ne c hP5, ?_⟩
        · calc Function.update st.gScore nbr tnt c +
              ((wt rm c n : ℝ) : WithTop ℝ) ≤
              st.gScore c + ((wt rm c n : ℝ) : WithTop ℝ) :=
                add_le_add_right (hg_le c) _
            _ ≤ st.gScore n := hP1
            _ = Function.update st.gScore nbr tnt n :=
                (Function.update_noteq hn _ _).symm
        · rw [Function.update_noteq hn]
          exact hP6
    · rw [hcf]
      exact acc_update H.acc hnoanc
    · intro n hncur h1
      rw [hg] at h1 ⊢
      rw [hol]
      by_cases hn : n = nbr
      · subst hn
        left
        refine ⟨(tnt + ((wt rm n goal_node : ℝ) : WithTop ℝ), n),
          List.mem_append_right _ (by simp), rfl, ?_⟩
        rw [Function.update_same]
      · rw [Function.update_noteq hn] at h1
        rcases H.expandNC n hncur h1 with ⟨e, he, he2, hle⟩ | hexp
        · left
          refine ⟨e, List.mem_append_left _ he, he2, ?_⟩
          rw [Function.update_noteq hn]
          exact hle
        · right
          intro m hm
          rw [Function.update_noteq hn]
          exact le_trans (hg_le m) (hexp m hm)
    · intro m hm
      rw [hg]
      have hgc : Function.update st.gScore nbr tnt cur = st.gScore cur :=
        Function.update_noteq (Ne.symm hnc) _ _
      rcases List.mem_append.mp hm with hm | hm
      · rw [hgc]
        exact le_trans (hg_le m) (H.expandCur m hm)
      · have hmn : m = nbr := by simpa using hm
        subst hmn
        rw [hgc, Function.update_same]
    · intro e he hegoal
      rw [hol] at he
      rw [hg]
      have hgg : Function.update st.gScore nbr tnt goal_node ≤
          st.gScore goal_node := hg_le goal_node
      rcases List.mem_append.mp he with he | he
      · exact le_trans hgg (H.goalUB e he hegoal)
      · have hee : e = (tnt + ((wt rm nbr goal_node : ℝ) : WithTop ℝ), nbr) := by
          simpa using he
        have hng : nbr = goal_node := by
          rw [hee] at hegoal
          exact hegoal
        rw [hee]
        show Function.update st.gScore nbr tnt goal_node ≤
          tnt + ((wt rm nbr goal_node : ℝ) : WithTop ℝ)
        rw [← hng, Function.update_same]
        exact le_add_wt _ (wt_nonneg rm nbr nbr)
    · intro h1
      rw [hol]
      by_cases hng : nbr = goal_node
      · exact ⟨(tnt + ((wt rm nbr goal_node : ℝ) : WithTop ℝ), nbr),
          List.mem_append_right _ (by simp), hng⟩
      · rw [hg, Function.update_noteq (Ne.symm hng)] at h1
        obtain ⟨e, he, he2⟩ := H.goalPending h1
        exact ⟨e, List.mem_append_left _ he, he2⟩

lemma GInvMid_pop {rm : Roadmap N} {start_node goal_node : N} {st : AState N}
    {m : WithTop ℝ × N} (H : GInv rm start_node goal_node st)
    (hm : m ∈ st.openList) (hg : m.2 ≠ goal_node) :
    GInvMid rm start_node goal_node m.2 []
      { st with openList := st.openList.erase m } := by
  refine
    { ainv := ⟨H.ainv.1, fun e he => H.ainv.2 e (List.mem_of_mem_erase he)⟩
      heapFin := fun e he => H.heapFin e (List.mem_of_mem_erase he)
      gstart := H.gstart
      cfstart := H.cfstart
      rootStart := H.rootStart
      parent := H.parent
      acc := H.acc
      expandNC := ?_
      expandCur := by intro x hx; cases hx
      goalUB := fun e he h2 => H.goalUB e (List.mem_of_mem_erase he) h2
      goalPending := ?_ }
  · intro n hncur h1
    rcases H.expand n h1 with ⟨e, he, he2, hle⟩ | hexp
    · left
      refine ⟨e, ?_, he2, hle⟩
      show e ∈ st.openList.erase m
      have hne : e ≠ m := by
        intro hem
        rw [hem] at he2
        exact hncur (by rw [← he2])
      exact (List.mem_erase_of_ne hne).mpr he
    · right
      exact hexp
  · intro h1
    obtain ⟨e, he, he2⟩ := H.goalPending h1
    refine ⟨e, ?_, he2⟩
    show e ∈ st.openList.erase m
    have hne : e ≠ m := by
      intro hem
      rw [hem] at he2
      exact hg he2
    exact (List.mem_erase_of_ne hne).mpr he

lemma GInvMid_fold {rm : Roadmap N} {start_node goal_node cur : N} :
    ∀ (ns : List N) (done : List N) (st : AState N),
      GInvMid rm start_node goal_node cur done st → cur ∈ rm.nodes →
      (∀ n ∈ ns, n ∈ rm.adj cur) →
      GInvMid rm start_node goal_node cur (done ++ ns)
        (ns.foldl (relaxStep rm goal_node cur) st) := by
  intro ns
  induction ns with
  | nil =>
    intro done st H _ _
    rw [List.append_nil]
    exact H
  | cons x xs ih =>
    intro done st H hcur hmem
    have hstep := GInvMid_step H hcur (hmem x (List.mem_cons_self x xs))
    have := ih (done ++ [x]) (relaxStep rm goal_node cur st x) hstep hcur
      (fun n hn => hmem n (List.mem_cons_of_mem x hn))
    rw [List.append_assoc] at this
    simpa using this

lemma GInv_of_mid {rm : Roadmap N} {start_node goal_node cur : N}
    {st : AState N} (H : GInvMid rm start_node goal_node cur (rm.adj cur) st) :
    GInv rm start_node goal_node st :=
  { ainv := H.ainv
    heapFin := H.heapFin
    gstart := H.gstart
    cfstart := H.cfstart
    rootStart := H.rootStart
    parent := H.parent
    acc := H.acc
    expand := by
      intro n h1
      by_cases hn : n = cur
      · right
        intro m hm
        rw [hn]
        exact H.expandCur m (by rw [← hn]; exact hm)
      · exact H.expandNC n hn h1
    goalUB := H.goalUB
    goalPending := H.goalPending }

lemma GInv_preserved {rm : Roadmap N} {start_node goal_node : N} {st : AState N}
    {m : WithTop ℝ × N} (H : GInv rm start_node goal_node st)
    (hm : m ∈ st.openList) (hg : m.2 ≠ goal_node) :
    GInv rm start_node goal_node
      (relaxAll rm goal_node m.2 { st with openList := st.openList.erase m }) := by
  have hcur : m.2 ∈ rm.nodes := H.ainv.2 m hm
  have hmid := GInvMid_fold (rm.adj m.2) []
    { st with openList := st.openList.erase m }
    (GInvMid_pop H hm hg) hcur (fun _ h => h)
  rw [List.nil_append] at hmid
  exact GInv_of_mid hmid

lemma GInv_init {rm : Roadmap N} (start_coord : Coord) {start_node : N}
    (goal_node : N) (hs : start_node ∈ rm.nodes) :
    GInv rm start_node goal_node
      (initState rm start_coord start_node goal_node) := by
  have hgupd : (initState rm start_coord start_node goal_node).gScore =
      Function.update (fun _ => (⊤ : WithTop ℝ)) start_node 0 := rfl
  have hcfupd : (initState rm start_coord start_node goal_node).cameFrom =
      (fun _ => (none : Option N)) := rfl
  have holupd : (initState rm start_coord start_node goal_node).openList =
      [((0 : WithTop ℝ), start_node)] := rfl
  have hgs : (initState rm start_coord start_node goal_node).gScore start_node
      = 0 := by
    rw [hgupd, Function.update_same]
  have hgother : ∀ n, n ≠ start_node →
      (initState rm start_coord start_node goal_node).gScore n = ⊤ := by
    intro n hn
    rw [hgupd, Function.update_noteq hn]
  refine
    { ainv := initState_AInv rm start_coord goal_node hs
      heapFin := ?_
      gstart := hgs
      cfstart := rfl
      rootStart := ?_
      parent := by
        intro n c hc
        rw [hcfupd] at hc
        exact absurd hc (by simp)
      acc := by
        intro n
        constructor
        intro c hc
        rw [hcfupd] at hc
        exact absurd hc (by simp)
      expand := ?_
      goalUB := ?_
      goalPending := ?_ }
  · intro e he
    rw [holupd] at he
    have he0 : e = ((0 : WithTop ℝ), start_node) := by simpa using he
    rw [he0]
    show (initState rm start_coord start_node goal_node).gScore start_node ≠ ⊤
    rw [hgs, ← WithTop.coe_zero]
    exact WithTop.coe_ne_top
  · intro n h1 _
    by_contra hne
    exact h1 (hgother n hne)
  · intro n h1
    have hns : n = start_node := by
      by_contra hne
      exact h1 (hgother n hne)
    subst hns
    left
    refine ⟨((0 : WithTop ℝ), n), by rw [holupd]; simp, rfl, ?_⟩
    rw [hgs, zero_add]
    show (0 : WithTop ℝ) ≤ ((wt rm n goal_node : ℝ) : WithTop ℝ)
    rw [← WithTop.coe_zero]
    exact WithTop.coe_le_coe.mpr (wt_nonneg rm n goal_node)
  · intro e he h2
    rw [holupd] at he
    have he' : e = ((0 : WithTop ℝ), start_node) := by simpa using he
    have hsg : start_node = goal_node := by
      rw [he'] at h2
      exact h2
    rw [he']
    show (initState rm start_coord start_node goal_node).gScore goal_node ≤ 0
    rw [hgupd, ← hsg, Function.update_same]
  · intro h1
    have hsg : goal_node = start_node := by
      by_contra hne
      exact h1 (hgother goal_node hne)
    refine ⟨((0 : WithTop ℝ), start_node), by rw [holupd]; simp, hsg.symm⟩

lemma heapMin_eq_none {l : List (WithTop ℝ × N)} (h : heapMin l = none) :
    l = [] := by
  cases l with
  | nil => rfl
  | cons x xs => exact absurd h (by simp [heapMin])

lemma IsCFChain.getLast_root {cf : N → Option N} {n : N} {l : List N}
    (h : IsCFChain cf n l) : ∃ r, l.getLast? = some r ∧ cf r = none := by
  induction h with
  | root hcf =>
    rename_i m
    exact ⟨m, rfl, hcf⟩
  | step hcf hchain ih =>
    rename_i m c l'
    obtain ⟨r, hr, hcfr⟩ := ih
    refine ⟨r, ?_, hcfr⟩
    cases l' with
    | nil => exact absurd rfl hchain.ne_nil
    | cons y ys =>
      rw [List.getLast?_cons_cons]
      exact hr

lemma IsCFChain.mem_pred {cf : N → Option N} {P : N → Prop} {n : N} {l : List N}
    (h : IsCFChain cf n l) (hn : P n)
    (hstep : ∀ a b, cf a = some b → P a → P b) :
    ∀ v ∈ l, P v := by
  induction h with
  | root _ =>
    intro v hv
    rw [List.mem_singleton] at hv
    subst hv
    exact hn
  | step hcf hchain ih =>
    rename_i m c l'
    intro v hv
    rcases List.mem_cons.mp hv with rfl | hv'
    · exact hn
    · exact ih (hstep m c hcf hn) v hv'

lemma IsCFChain.chain_adj {rm : Roadmap N} {cf : N → Option N} {n : N}
    {l : List N} (h : IsCFChain cf n l)
    (hadj : ∀ a b, cf a = some b → a ∈ rm.adj b) :
    List.Chain' (fun u v => u ∈ rm.adj v) l := by
  induction h with
  | root _ => exact List.chain'_singleton _
  | step hcf hchain ih =>
    rename_i m c l'
    refine List.chain'_cons'.mpr ⟨?_, ih⟩
    intro y hy
    rw [hchain.head_eq] at hy
    have hyc : c = y := by simpa using hy
    subst hyc
    exact hadj m c hcf

lemma chain_cost_le {rm : Roadmap N} {start_node : N} {st : AState N}
    (hgs : st.gScore start_node = 0)
    (hroot : ∀ n, st.gScore n ≠ ⊤ → st.cameFrom n = none → n = start_node)
    (hpar : ∀ n c, st.cameFrom n = some c →
      st.gScore c + ((wt rm c n : ℝ) : WithTop ℝ) ≤ st.gScore n ∧
        st.gScore c ≠ ⊤) :
    ∀ {l : List N} {n : N}, IsCFChain st.cameFrom n l → st.gScore n ≠ ⊤ →
      ((pathCost rm l.reverse : ℝ) : WithTop ℝ) ≤ st.gScore n ∧
      l.reverse.head? = some start_node := by
  intro l n h
  induction h with
  | root hcf =>
    rename_i m
    intro hfin
    have hms : m = start_node := hroot m hfin hcf
    subst hms
    constructor
    · rw [hgs, List.reverse_singleton]
      have h0 : pathCost rm [m] = 0 := rfl
      rw [h0, WithTop.coe_zero]
    · rw [List.reverse_singleton]
      rfl
  | step hcf hchain ih =>
    rename_i m c l'
    intro hfin
    obtain ⟨hle, hcfin⟩ := hpar m c hcf
    obtain ⟨ihcost, ihhead⟩ := ih hcfin
    have hlast : l'.reverse.getLast? = some c := by
      rw [List.getLast?_reverse]
      exact hchain.head_eq
    obtain ⟨t, ht⟩ : ∃ t, l'.reverse = start_node :: t := by
      cases hrev : l'.reverse with
      | nil =>
        rw [hrev] at ihhead
        exact absurd ihhead (by simp)
      | cons a t =>
        rw [hrev] at ihhead
        have haeq : a = start_node := by simpa using ihhead
        subst haeq
        exact ⟨t, rfl⟩
    constructor
    · rw [List.reverse_cons, pathCost_append_last rm l'.reverse c m hlast,
        WithTop.coe_add]
      calc ((pathCost rm l'.reverse : ℝ) : WithTop ℝ) + ((wt rm c m : ℝ) : WithTop ℝ)
          ≤ st.gScore c + ((wt rm c m : ℝ) : WithTop ℝ) := add_le_add_right ihcost _
        _ ≤ st.gScore m := hle
    · rw [List.reverse_cons, ht]
      rfl

lemma relaxed_path_bound {rm : Roadmap N} {st : AState N}
    (hexp : ∀ n, st.gScore n ≠ ⊤ →
      ∀ m ∈ rm.adj n, st.gScore m ≤ st.gScore n + ((wt rm n m : ℝ) : WithTop ℝ)) :
    ∀ (p : List N) (a z : N) (b : ℝ), p.head? = some a → p.getLast? = some z →
      List.Chain' (fun u v => v ∈ rm.adj u) p →
      st.gScore a ≤ ((b : ℝ) : WithTop ℝ) →
      st.gScore z ≤ ((b + pathCost rm p : ℝ) : WithTop ℝ) := by
  intro p
  induction p with
  | nil =>
    intro a z b ha _ _ _
    exact absurd ha (by simp)
  | cons x xs ih =>
    intro a z b ha hz hchain hga
    have hax : x = a := by simpa using ha
    subst hax
    cases xs with
    | nil =>
      have hzx : x = z := by simpa using hz
      subst hzx
      have h0 : pathCost rm [x] = 0 := rfl
      rw [h0, add_zero]
      exact hga
    | cons y ys =>
      have hy : (y :: ys).head? = some y := rfl
      have hz' : (y :: ys).getLast? = some z :=
        (List.getLast?_cons_cons).symm.trans hz
      have hch := List.chain'_cons.mp hchain
      have hgx_fin : st.gScore x ≠ ⊤ :=
        (lt_of_le_of_lt hga (WithTop.coe_lt_top b)).ne
      have hgy : st.gScore y ≤ st.gScore x + ((wt rm x y : ℝ) : WithTop ℝ) :=
        hexp x hgx_fin y hch.1
      have hgy' : st.gScore y ≤ (((b + wt rm x y) : ℝ) : WithTop ℝ) := by
        rw [WithTop.coe_add]
        exact le_trans hgy (add_le_add_right hga _)
      have ihz := ih y z (b + wt rm x y) hy hz' hch.2 hgy'
      have hpc : pathCost rm (x :: y :: ys) = wt rm x y + pathCost rm (y :: ys) := rfl
      have harith : b + wt rm x y + pathCost rm (y :: ys) =
          b + pathCost rm (x :: y :: ys) := by
        rw [hpc]
        ring
      rw [← harith]
      exact ihz

lemma heap_empty_no_path {rm : Roadmap N} {start_node goal_node : N}
    {st : AState N} (H : GInv rm start_node goal_node st)
    (hempty : st.openList = []) :
    ¬ ∃ p, IsPathFrom rm start_node goal_node p := by
  rintro ⟨p, hhead, hlast, hchain⟩
  have hexp : ∀ n, st.gScore n ≠ ⊤ →
      ∀ m ∈ rm.adj n, st.gScore m ≤ st.gScore n + ((wt rm n m : ℝ) : WithTop ℝ) := by
    intro n hn
    rcases H.expand n hn with ⟨e, he, -, -⟩ | h
    · rw [hempty] at he
      exact absurd he (by simp)
    · exact h
  have hga : st.gScore start_node ≤ ((0 : ℝ) : WithTop ℝ) := by
    rw [H.gstart, WithTop.coe_zero]
  have hgz := relaxed_path_bound hexp p start_node goal_node 0 hhead hlast hchain hga
  have hfin : st.gScore goal_node ≠ ⊤ :=
    (lt_of_le_of_lt hgz (WithTop.coe_lt_top _)).ne
  obtain ⟨e, he, -⟩ := H.goalPending hfin
  rw [hempty] at he
  exact absurd he (by simp)

lemma goal_pop_bound {rm : Roadmap N} {start_node goal_node : N}
    {st : AState N} {m : WithTop ℝ × N}
    (H : GInv rm start_node goal_node st)
    (hpop : heapMin st.openList = some m) (hgoal : m.2 = goal_node) :
    ∀ (p : List N) (a : N) (b : ℝ), p.head? = some a →
      p.getLast? = some goal_node →
      List.Chain' (fun u v => v ∈ rm.adj u) p →
      st.gScore a ≤ ((b : ℝ) : WithTop ℝ) →
      st.gScore goal_node ≤ ((b + pathCost rm p : ℝ) : WithTop ℝ) := by
  intro p
  induction p with
  | nil =>
    intro a b ha _ _ _
    exact absurd ha (by simp)
  | cons x xs ih =>
    intro a b ha hz hchain hga
    have hax : x = a := by simpa using ha
    subst hax
    have hgx_fin : st.gScore x ≠ ⊤ :=
      (lt_of_le_of_lt hga (WithTop.coe_lt_top b)).ne
    rcases H.expand x hgx_fin with ⟨e, he, hex, hef⟩ | hrelax
    · have hgub : st.gScore goal_node ≤ m.1 :=
        H.goalUB m (heapMin_spec hpop).1 hgoal
      have hme : m.1 ≤ e.1 := heapMin_fst_le hpop e he
      have hhx : wt rm x goal_node ≤ pathCost rm (x :: xs) :=
        heuristic_le_pathCost rm (x :: xs) x goal_node rfl hz
      calc st.gScore goal_node ≤ m.1 := hgub
        _ ≤ e.1 := hme
        _ ≤ st.gScore x + ((wt rm x goal_node : ℝ) : WithTop ℝ) := hef
        _ ≤ ((b : ℝ) : WithTop ℝ) + ((wt rm x goal_node : ℝ) : WithTop ℝ) :=
            add_le_add_right hga _
        _ = (((b + wt rm x goal_node) : ℝ) : WithTop ℝ) := by rw [WithTop.coe_add]
        _ ≤ ((b + pathCost rm (x :: xs) : ℝ) : WithTop ℝ) := by
            rw [WithTop.coe_le_coe]
            linarith
    · cases xs with
      | nil =>
        have hzx : x = goal_node := by simpa using hz
        have h0 : pathCost rm [x] = 0 := rfl
        rw [h0, add_zero, ← hzx]
        exact hga
      | cons y ys =>
        have hy : (y :: ys).head? = some y := rfl
        have hz' : (y :: ys).getLast? = some goal_node :=
          (List.getLast?_cons_cons).symm.trans hz
        have hch := List.chain'_cons.mp hchain
        have hgy : st.gScore y ≤ st.gScore x + ((wt rm x y : ℝ) : WithTop ℝ) :=
          hrelax y hch.1
        have hgy' : st.gScore y ≤ (((b + wt rm x y) : ℝ) : WithTop ℝ) := by
          rw [WithTop.coe_add]
          exact le_trans hgy (add_le_add_right hga _)
        have ihz := ih y (b + wt rm x y) hy hz' hch.2 hgy'
        have hpc : pathCost rm (x :: y :: ys) = wt rm x y + pathCost rm (y :: ys) := rfl
        have harith : b + wt rm x y + pathCost rm (y :: ys) =
            b + pathCost rm (x :: y :: ys) := by
          rw [hpc]
          ring
        rw [← harith]
        exact ihz

lemma goal_pop_result {rm : Roadmap N} {start_node goal_node : N}
    {st : AState N} {m : WithTop ℝ × N}
    (H : GInv rm start_node goal_node st)
    (hpop : heapMin st.openList = some m) (hgoal : m.2 = goal_node) :
    ∃ ns, IsPathFrom rm start_node goal_node ns ∧
      (reconstructPath rm.coord st.cameFrom rm.nodes.length goal_node).reverse =
        ns.map rm.coord ∧
      ((pathCost rm ns : ℝ) : WithTop ℝ) ≤ st.gScore goal_node := by
  have hmem := (heapMin_spec hpop).1
  have hgfin : st.gScore goal_node ≠ ⊤ := by
    have h1 := H.heapFin m hmem
    rw [hgoal] at h1
    exact h1
  obtain ⟨l, hl⟩ := IsCFChain.exists_chain H.acc goal_node
  have hnodes_all : ∀ v ∈ l, v ∈ rm.nodes := by
    have hgmem : goal_node ∈ rm.nodes := by
      have h1 := H.ainv.2 m hmem
      rw [hgoal] at h1
      exact h1
    exact hl.mem_nodes hgmem (fun a c hac => (H.parent a c hac).2.1)
  have hnodup : l.Nodup := hl.nodup H.acc
  have hlen : l.length ≤ rm.nodes.length + 1 :=
    le_trans (nodup_subset_length_le hnodup hnodes_all) (Nat.le_succ _)
  have hrec : reconstructPath rm.coord st.cameFrom rm.nodes.length goal_node =
      l.map rm.coord := reconstructPath_eq_chain rm.coord hl rm.nodes.length hlen
  have hpar2 : ∀ n c, st.cameFrom n = some c →
      st.gScore c + ((wt rm c n : ℝ) : WithTop ℝ) ≤ st.gScore n ∧
        st.gScore c ≠ ⊤ :=
    fun n c h => ⟨(H.parent n c h).1, (H.parent n c h).2.2.2.2.1⟩
  obtain ⟨hcost, hhead⟩ := chain_cost_le H.gstart H.rootStart hpar2 hl hgfin
  refine ⟨l.reverse, ⟨hhead, ?_, ?_⟩, ?_, hcost⟩
  · rw [List.getLast?_reverse]
    exact hl.head_eq
  · exact List.chain'_reverse.mpr
      (hl.chain_adj (fun a c hac => (H.parent a c hac).2.2.1))
  · rw [hrec]
    exact (List.map_reverse rm.coord l).symm

lemma astarLoopFuel_result {rm : Roadmap N} {start_node goal_node : N} :
    ∀ (fuel : ℕ) (st : AState N), GInv rm start_node goal_node st →
      ∀ r, astarLoopFuel rm goal_node fuel st = some r →
      (r = [] ∧ ¬ ∃ p, IsPathFrom rm start_node goal_node p) ∨
      (∃ ns, r = ns.map rm.coord ∧ IsPathFrom rm start_node goal_node ns ∧
        ∀ q, IsPathFrom rm start_node goal_node q →
          pathCost rm ns ≤ pathCost rm q) := by
  intro fuel
  induction fuel with
  | zero =>
    intro st _ r hr
    have h0 : (none : Option (List Coord)) = some r := hr
    exact absurd h0 (by simp)
  | succ fuel ih =>
    intro st H r hr
    cases hpop : heapMin st.openList with
    | none =>
      have hr1 : astarLoopFuel rm goal_node (fuel + 1) st =
          match heapMin st.openList with
          | none => some []
          | some m =>
            if m.2 = goal_node then
              some (reconstructPath rm.coord st.cameFrom rm.nodes.length m.2).reverse
            else
              astarLoopFuel rm goal_node fuel
                (relaxAll rm goal_node m.2
                  { st with openList := st.openList.erase m }) := rfl
      rw [hr1, hpop] at hr
      have hre : r = [] := by
        have h2 : some ([] : List Coord) = some r := hr
        exact (Option.some_inj.mp h2).symm
      left
      exact ⟨hre, heap_empty_no_path H (heapMin_eq_none hpop)⟩
    | some m =>
      have hr1 : astarLoopFuel rm goal_node (fuel + 1) st =
          match heapMin st.openList with
          | none => some []
          | some m =>
            if m.2 = goal_node then
              some (reconstructPath rm.coord st.cameFrom rm.nodes.length m.2).reverse
            else
              astarLoopFuel rm goal_node fuel
                (relaxAll rm goal_node m.2
                  { st with openList := st.openList.erase m }) := rfl
      rw [hr1, hpop] at hr
      have hr2 : (if m.2 = goal_node then
          some (reconstructPath rm.coord st.cameFrom rm.nodes.length m.2).reverse
        else
          astarLoopFuel rm goal_node fuel
            (relaxAll rm goal_node m.2
              { st with openList := st.openList.erase m })) = some r := hr
      by_cases hg : m.2 = goal_node
      · rw [if_pos hg] at hr2
        have hre : r =
            (reconstructPath rm.coord st.cameFrom rm.nodes.length m.2).reverse :=
          (Option.some_inj.mp hr2).symm
        obtain ⟨ns, hpathns, hmap, hcost⟩ := goal_pop_result H hpop hg
        right
        refine ⟨ns, ?_, hpathns, ?_⟩
        · rw [hre, hg]
          exact hmap
        · intro q hq
          have hga : st.gScore start_node ≤ ((0 : ℝ) : WithTop ℝ) := by
            rw [H.gstart, WithTop.coe_zero]
          have hb := goal_pop_bound H hpop hg q start_node 0 hq.1 hq.2.1 hq.2.2 hga
          have hcomb := le_trans hcost hb
          rw [WithTop.coe_le_coe] at hcomb
          linarith
      · rw [if_neg hg] at hr2
        exact ih _ (GInv_preserved H (heapMin_spec hpop).1 hg) r hr2

lemma astar_eq_loop {rm : Roadmap N} {start_coord goal_coord : Coord}
    {start_node goal_node : N}
    (hs : nearestNode rm start_coord = some start_node)
    (hg : nearestNode rm goal_coord = some goal_node) :
    astar rm start_coord goal_coord =
      some (astarLoop rm goal_node (initState rm start_coord start_node goal_node)
        (initState_AInv rm start_coord goal_node (nearestNode_mem hs))) := by
  unfold astar
  split
  · rename_i sn gn heq1 heq2
    rw [hs] at heq1
    rw [hg] at heq2
    have h1 : sn = start_node := by
      injection heq1.symm
    have h2 : gn = goal_node := by
      injection heq2.symm
    subst h1
    subst h2
    rfl
  · exact absurd (hs.symm.trans ‹nearestNode rm start_coord = none›) (by simp)
  · exact absurd (hg.symm.trans ‹nearestNode rm goal_coord = none›) (by simp)

/-- C1: for a Roadmap in which a directed path exists between the node nearest
the start coordinate and the node nearest the goal coordinate, `astar` returns
a non-empty route that is the coordinate image of a Roadmap node path from the
snapped start to the snapped goal — so consecutive route coordinates are
coordinates of adjacent Roadmap nodes — and the route's total Euclidean length
is at most that of every other node-to-node path between those two nodes. -/
theorem astar_optimal (rm : Roadmap N) (start_coord goal_coord : Coord)
    (start_node goal_node : N)
    (hs : nearestNode rm start_coord = some start_node)
    (hg : nearestNode rm goal_coord = some goal_node)
    (hpath : ∃ p, IsPathFrom rm start_node goal_node p) :
    ∃ route ns, astar rm start_coord goal_coord = some route ∧
      route ≠ [] ∧ route = ns.map rm.coord ∧
      IsPathFrom rm start_node goal_node ns ∧
      ∀ q, IsPathFrom rm start_node goal_node q →
        routeLen route ≤ routeLen (q.map rm.coord) := by
  obtain ⟨fuel, hfuel⟩ := astarLoopFuel_adequate
    (initState rm start_coord start_node goal_node)
    (initState_AInv rm start_coord goal_node (nearestNode_mem hs))
  rcases astarLoopFuel_result fuel _
      (GInv_init start_coord goal_node (nearestNode_mem hs)) _ hfuel with
    ⟨-, hnop⟩ | ⟨ns, hmap, hpathns, hopt⟩
  · exact absurd hpath hnop
  · refine ⟨_, ns, astar_eq_loop hs hg, ?_, hmap, hpathns, ?_⟩
    · rw [hmap]
      obtain ⟨x, t, hx⟩ : ∃ x t, ns = x :: t := by
        cases hns : ns with
        | nil =>
          rw [hns] at hpathns
          exact absurd hpathns.1 (by simp)
        | cons a b => exact ⟨a, b, rfl⟩
      rw [hx]
      simp
    · intro q hq
      rw [hmap, routeLen_map_coord, routeLen_map_coord]
      exact hopt q hq

/-- C5: when the goal's nearest node is unreachable from the start's nearest
node along the directed adjacency relation, `astar` returns `some []` — the
empty route, with no exception (the error value `none` does not occur), so the
absence of a path is signalled only by emptiness of the result. -/
theorem astar_no_path_empty (rm : Roadmap N) (start_coord goal_coord : Coord)
    (start_node goal_node : N)
    (hs : nearestNode rm start_coord = some start_node)
    (hg : nearestNode rm goal_coord = some goal_node)
    (hnopath : ¬ ∃ p, IsPathFrom rm start_node goal_node p) :
    astar rm start_coord goal_coord = some [] := by
  obtain ⟨fuel, hfuel⟩ := astarLoopFuel_adequate
    (initState rm start_coord start_node goal_node)
    (initState_AInv rm start_coord goal_node (nearestNode_mem hs))
  rcases astarLoopFuel_result fuel _
      (GInv_init start_coord goal_node (nearestNode_mem hs)) _ hfuel with
    ⟨hre, -⟩ | ⟨ns, -, hpathns, -⟩
  · rw [astar_eq_loop hs hg, hre]
  · exact absurd ⟨ns, hpathns⟩ hnopath

/-- A two-node roadmap on a line with one directed edge, for the C1 witness. -/
def rmLine : Roadmap ℕ where
  nodes := [0, 1]
  coord := fun n => if n = 0 then (0, 0) else (1, 0)
  adj := fun n => if n = 0 then [1] else []
  nodes_nodup := by decide
  adj_mem := by decide

lemma rmLine_nearest_start : nearestNode rmLine (0, 0) = some 0 := by
  have h1 : ¬ (heuristic (0, 0) (rmLine.coord 1) <
      heuristic (0, 0) (rmLine.coord 0)) := by
    have hc0 : rmLine.coord 0 = (0, 0) := rfl
    rw [hc0, heuristic_self]
    exact not_lt.mpr (heuristic_nonneg _ _)
  show some (if heuristic (0, 0) (rmLine.coord 1) <
    heuristic (0, 0) (rmLine.coord 0) then 1 else 0) = some 0
  rw [if_neg h1]

lemma rmLine_nearest_goal : nearestNode rmLine (1, 0) = some 1 := by
  have h1 : heuristic (1, 0) (rmLine.coord 1) <
      heuristic (1, 0) (rmLine.coord 0) := by
    have hc0 : rmLine.coord 0 = (0, 0) := rfl
    have hc1 : rmLine.coord 1 = (1, 0) := rfl
    rw [hc0, hc1, heuristic_self]
    have hne : heuristic ((1 : ℝ), (0 : ℝ)) ((0 : ℝ), (0 : ℝ)) ≠ 0 := by
      rw [Ne, heuristic_eq_zero_iff]
      intro hq
      have h2 : (1 : ℝ) = 0 := congrArg Prod.fst hq
      norm_num at h2
    exact lt_of_le_of_ne (heuristic_nonneg _ _) (Ne.symm hne)
  show some (if heuristic (1, 0) (rmLine.coord 1) <
    heuristic (1, 0) (rmLine.coord 0) then 1 else 0) = some 1
  rw [if_pos h1]

/-- Witness for C1: on the concrete two-node line roadmap, with the snapped
start node 0, the snapped goal node 1 and the path 0 → 1, the optimality
theorem yields a concrete optimal route. -/
theorem astar_optimal_witness :
    ∃ route ns, astar rmLine (0, 0) (1, 0) = some route ∧
      route ≠ [] ∧ route = ns.map rmLine.coord ∧
      IsPathFrom rmLine 0 1 ns ∧
      ∀ q, IsPathFrom rmLine 0 1 q →
        routeLen route ≤ routeLen (q.map rmLine.coord) :=
  astar_optimal rmLine (0, 0) (1, 0) 0 1 rmLine_nearest_start rmLine_nearest_goal
    ⟨[0, 1], rfl, rfl, List.chain'_cons.mpr ⟨by decide, List.chain'_singleton 1⟩⟩

/-- A disconnected two-node roadmap with no edges at all, for the C5 witness. -/
def rmSplit : Roadmap ℕ where
  nodes := [0, 1]
  coord := fun n => if n = 0 then (0, 0) else (10, 0)
  adj := fun _ => []
  nodes_nodup := by decide
  adj_mem := by decide

lemma rmSplit_nearest_start : nearestNode rmSplit (0, 0) = some 0 := by
  have h1 : ¬ (heuristic (0, 0) (rmSplit.coord 1) <
      heuristic (0, 0) (rmSplit.coord 0)) := by
    have hc0 : rmSplit.coord 0 = (0, 0) := rfl
    rw [hc0, heuristic_self]
    exact not_lt.mpr (heuristic_nonneg _ _)
  show some (if heuristic (0, 0) (rmSplit.coord 1) <
    heuristic (0, 0) (rmSplit.coord 0) then 1 else 0) = some 0
  rw [if_neg h1]

lemma rmSplit_nearest_goal : nearestNode rmSplit (10, 0) = some 1 := by
  have h1 : heuristic (10, 0) (rmSplit.coord 1) <
      heuristic (10, 0) (rmSplit.coord 0) := by
    have hc0 : rmSplit.coord 0 = (0, 0) := rfl
    have hc1 : rmSplit.coord 1 = (10, 0) := rfl
    rw [hc0, hc1, heuristic_self]
    have hne : heuristic ((10 : ℝ), (0 : ℝ)) ((0 : ℝ), (0 : ℝ)) ≠ 0 := by
      rw [Ne, heuristic_eq_zero_iff]
      intro hq
      have h2 : (10 : ℝ) = 0 := congrArg Prod.fst hq
      norm_num at h2
    exact lt_of_le_of_ne (heuristic_nonneg _ _) (Ne.symm hne)
  show some (if heuristic (10, 0) (rmSplit.coord 1) <
    heuristic (10, 0) (rmSplit.coord 0) then 1 else 0) = some 1
  rw [if_pos h1]

lemma rmSplit_no_path : ¬ ∃ p, IsPathFrom rmSplit 0 1 p := by
  rintro ⟨p, hhead, hlast, hchain⟩
  rcases p with _ | ⟨x, _ | ⟨y, ys⟩⟩
  · exact absurd hhead (by simp)
  · have hx0 : x = 0 := by simpa using hhead
    have hx1 : x = 1 := by simpa using hlast
    rw [hx0] at hx1
    exact absurd hx1 (by simp)
  · have hadj := (List.chain'_cons.mp hchain).1
    have hempty : rmSplit.adj x = [] := rfl
    rw [hempty] at hadj
    exact absurd hadj (by simp)

/-- Witness for C5: on the concrete disconnected two-node roadmap, with the
snapped start node 0 and the snapped goal node 1, the search returns the empty
route. -/
theorem astar_no_path_empty_witness :
    astar rmSplit (0, 0) (10, 0) = some [] :=
  astar_no_path_empty rmSplit (0, 0) (10, 0) 0 1 rmSplit_nearest_start
    rmSplit_nearest_goal rmSplit_no_path

/-- Witness for C7: the nearest-node specification applied at the concrete
two-node roadmap whose nodes share one coordinate. -/
theorem nearestNode_spec_witness :
    rmDup.nodes ≠ [] ∧
      ∃ m, nearestNode rmDup (0, 0) = some m ∧ m ∈ rmDup.nodes ∧
        (∀ n ∈ rmDup.nodes,
          heuristic (0, 0) (rmDup.coord m) ≤ heuristic (0, 0) (rmDup.coord n)) ∧
        (∃ pre post, rmDup.nodes = pre ++ m :: post ∧
          ∀ n ∈ pre,
            heuristic (0, 0) (rmDup.coord m) < heuristic (0, 0) (rmDup.coord n)) ∧
        (∀ n₀ ∈ rmDup.nodes, rmDup.coord n₀ = (0, 0) →
          (∀ n ∈ rmDup.nodes, rmDup.coord n = (0, 0) → n = n₀) → m = n₀) :=
  ⟨by decide, nearestNode_spec rmDup (0, 0) (by decide)⟩
